import Mathlib

/-! Verification of graphWithDFS: adjacency-list construction and push/pop numbered
depth-first search.

Shallow embedding of `src/main.cpp`.

* A chain of heap `AdjNode`s ending in `nullptr` is the list of the `data` fields
  along the chain (`nullptr` is `[]`); nodes are never modified after they were
  linked, so sharing of tails is not observable.
* `listHead` (an array of `_N` head nodes) is a list of `AdjNode`s.
* `int` vertex indices are `Int`; every array access `a[i]` is checked: an index
  outside the array is the error `Err.outOfRange` (undefined behaviour in C++).
* the counters `pushNo`, `popNo` and the stored push/pop numbers are `Nat`: they start
  at 1 and only grow by one per vertex, so they stay below `_N + 2`.
* the recursion of `dfs` is bounded by a depth budget (`fuel`); exceeding the budget
  is the error `Err.depth`.
* `refVisit`, `refOuterLoop` and `refRunDFS` are the traversal as the specification
  words it, with one shared counter; they are only used to compare the code with it.
-/

namespace GraphDFS

/-! ## The program -/

/-- Edge struct: integer source and destination. -/
structure Edge where
  source : Int
  destination : Int
deriving DecidableEq

/-- Head node of the adjacency list of one source: `data` is the source index, `ptr`
the chain of destination nodes (most recently linked first). -/
structure AdjNode where
  data : Int
  ptr : List Int
deriving DecidableEq

/-- Entry of the dfs array: pop number and push number of the vertex with that index. -/
structure DFSVertex where
  pop : Nat
  push : Nat
deriving DecidableEq

/-- Outcomes that are not a normal return. -/
inductive Err where
  | outOfRange
  | depth
deriving DecidableEq

/-- Checked read `a[i]` with an `int` index. -/
def getAt {α : Type} (a : List α) (i : Int) : Option α :=
  if 0 ≤ i then a[i.toNat]? else none

/-- Checked write `a[i] = x` with an `int` index. -/
def setAt {α : Type} (a : List α) (i : Int) (x : α) : Option (List α) :=
  if 0 ≤ i ∧ i.toNat < a.length then some (a.set i.toNat x) else none

/-- The graph class: `_N` and the array `listHead`. -/
structure Graph where
  N : Nat
  listHead : List AdjNode
deriving DecidableEq

/-- The method `Graph::addAdjNode`: returns the (possibly updated) head array and the returned
pointer, as the chain it points to. In the non-empty branch a new node in front of the
old chain is returned and `listHead` is left untouched; in the empty branch the new
one-node chain is stored in `listHead[source].ptr` and returned. -/
def addAdjNode (listHead : List AdjNode) (source destination : Int) :
    Except Err (List AdjNode × List Int) :=
  match getAt listHead source with
  | none => .error .outOfRange
  | some h =>
    if h.ptr ≠ [] then
      .ok (listHead, destination :: h.ptr)
    else
      match setAt listHead source { h with ptr := [destination] } with
      | none => .error .outOfRange
      | some lh => .ok (lh, [destination])

/-- One iteration of the second loop of the constructor:
`listHead[nodeIndex].ptr = addAdjNode(listHead[nodeIndex].data, edges[i].destination)`. -/
def addEdge (listHead : List AdjNode) (e : Edge) : Except Err (List AdjNode) :=
  let nodeIndex := e.source
  match getAt listHead nodeIndex with
  | none => .error .outOfRange
  | some h =>
    match addAdjNode listHead h.data e.destination with
    | .error x => .error x
    | .ok (lh, r) =>
      match getAt lh nodeIndex with
      | none => .error .outOfRange
      | some h2 =>
        match setAt lh nodeIndex { h2 with ptr := r } with
        | none => .error .outOfRange
        | some lh2 => .ok lh2

/-- The second loop of the constructor over the edge array. -/
def addEdges : List AdjNode → List Edge → Except Err (List AdjNode)
  | lh, [] => .ok lh
  | lh, e :: es =>
    match addEdge lh e with
    | .error x => .error x
    | .ok lh2 => addEdges lh2 es

/-- The first loop of the constructor: `listHead[i].data = i; listHead[i].ptr = nullptr`. -/
def initHeads (N : Nat) : List AdjNode :=
  List.map (fun (i : Nat) => ({ data := (i : Int), ptr := [] } : AdjNode)) (List.range N)

/-- The constructor `Graph::Graph(N, n, edges)`; the edge array and its length `n` are the list. -/
def mkGraph (N : Nat) (edges : List Edge) : Except Err Graph :=
  match addEdges (initHeads N) edges with
  | .error x => .error x
  | .ok lh => .ok { N := N, listHead := lh }

/-- The adjacency sequence of vertex `v`: the chain behind `listHead[v].ptr`. -/
def Graph.adj (g : Graph) (v : Nat) : List Int :=
  match g.listHead[v]? with
  | some h => h.ptr
  | none => []

/-- The variables `dfs` works on by reference: the two counters and the dfs array. -/
structure DState where
  pushNo : Nat
  popNo : Nat
  arr : List DFSVertex
deriving DecidableEq

/-- The `while (travPtr != nullptr)` loop of `dfs`; `visit` is the recursive call. -/
def dfsLoop (visit : DState → Int → Except Err DState) :
    List Int → DState → Except Err DState
  | [], s => .ok s
  | d :: rest, s =>
    match getAt s.arr d with
    | none => .error .outOfRange
    | some x =>
      if x.push = 0 then
        match visit s d with
        | .error e => .error e
        | .ok s2 => dfsLoop visit rest s2
      else dfsLoop visit rest s

/-- The method `Graph::dfs(_pushNo, _popNo, _node, _arr)` with a budget for the recursion depth. -/
def dfs (g : Graph) : Nat → DState → Int → Except Err DState
  | 0, _, _ => .error .depth
  | fuel + 1, s, node =>
    match getAt g.listHead node with
    | none => .error .outOfRange
    | some h =>
      let travPtr := h.ptr
      match getAt s.arr node with
      | none => .error .outOfRange
      | some x =>
        match setAt s.arr node { x with push := s.pushNo } with
        | none => .error .outOfRange
        | some a1 =>
          match dfsLoop (dfs g fuel) travPtr { s with pushNo := s.pushNo + 1, arr := a1 } with
          | .error e => .error e
          | .ok s2 =>
            match getAt s2.arr node with
            | none => .error .outOfRange
            | some y =>
              match setAt s2.arr node { y with pop := s2.popNo } with
              | none => .error .outOfRange
              | some a3 => .ok { s2 with popNo := s2.popNo + 1, arr := a3 }

/-- The state of `dfsWrapper` before its second loop: counters 1, all entries zero. -/
def initState (N : Nat) : DState :=
  { pushNo := 1, popNo := 1, arr := List.replicate N { pop := 0, push := 0 } }

/-- The second loop of `dfsWrapper`, over the indices in `is`. -/
def outerLoop (g : Graph) (fuel : Nat) : List Nat → DState → Except Err DState
  | [], s => .ok s
  | i :: is, s =>
    match s.arr[i]? with
    | none => .error .outOfRange
    | some x =>
      if x.push = 0 then
        match dfs g fuel s (i : Int) with
        | .error e => .error e
        | .ok s2 => outerLoop g fuel is s2
      else outerLoop g fuel is s

/-- The method `Graph::dfsWrapper` with an explicit depth budget; returns the final state. -/
def dfsWrapperFuel (g : Graph) (fuel : Nat) : Except Err DState :=
  outerLoop g fuel (List.range g.N) (initState g.N)

/-- The method `Graph::dfsWrapper`; the depth budget is the vertex count. -/
def dfsWrapper (g : Graph) : Except Err DState :=
  dfsWrapperFuel g g.N

/-- The program: build the graph, run the traversal, return the dfs array that
`dfsWrapper` prints. -/
def run (N : Nat) (edges : List Edge) : Except Err (List DFSVertex) :=
  match mkGraph N edges with
  | .error e => .error e
  | .ok g =>
    match dfsWrapper g with
    | .error e => .error e
    | .ok s => .ok s.arr

/-- The edge array of `main`. -/
def sampleEdges : List Edge :=
  [⟨0, 1⟩, ⟨1, 2⟩, ⟨2, 3⟩, ⟨2, 5⟩, ⟨0, 2⟩, ⟨5, 3⟩, ⟨3, 5⟩, ⟨3, 4⟩, ⟨5, 1⟩, ⟨1, 4⟩]

/-- Push number of vertex `v` in a dfs array (0 outside the array). -/
def pushOf (arr : List DFSVertex) (v : Nat) : Nat :=
  match arr[v]? with
  | some x => x.push
  | none => 0

/-- Pop number of vertex `v` in a dfs array (0 outside the array). -/
def popOf (arr : List DFSVertex) (v : Nat) : Nat :=
  match arr[v]? with
  | some x => x.pop
  | none => 0

/-- Every endpoint of every edge lies in `[0, N)`. -/
def ValidEdges (N : Nat) (edges : List Edge) : Prop :=
  ∀ e ∈ edges, 0 ≤ e.source ∧ e.source < N ∧ 0 ≤ e.destination ∧ e.destination < N

instance (N : Nat) (edges : List Edge) : Decidable (ValidEdges N edges) := by
  unfold ValidEdges; infer_instance

/-- Destinations of the edges with source `v`, most recent edge first. -/
def adjSpec (edges : List Edge) (v : Nat) : List Int :=
  ((edges.filter fun e => e.source = (v : Int)).map fun e => e.destination).reverse

/-- The head array is well formed: `N` heads, head `v` carries `data = v`. -/
def HeadsWF (N : Nat) (lh : List AdjNode) : Prop :=
  lh.length = N ∧ ∀ (v : Nat) (h : AdjNode), lh[v]? = some h → h.data = (v : Int)

/-- The chain stored behind head `v`. -/
def ptrOf (lh : List AdjNode) (v : Nat) : List Int :=
  match lh[v]? with
  | some h => h.ptr
  | none => []

/-- Number of entries of the dfs array whose push number is still zero. -/
def undisc (arr : List DFSVertex) : Nat :=
  arr.countP fun x => x.push = 0

/-- The visits of `u` and `w` lie one after the other, or one inside the other. -/
def Nested (arr : List DFSVertex) (u w : Nat) : Prop :=
  popOf arr u < pushOf arr w ∨ popOf arr w < pushOf arr u ∨
  (pushOf arr u < pushOf arr w ∧ popOf arr w < popOf arr u) ∨
  (pushOf arr w < pushOf arr u ∧ popOf arr u < popOf arr w)

/-- The graph is well formed for `N` vertices: `N` heads and every stored destination
lies in `[0, N)`. -/
def GraphWF (g : Graph) (N : Nat) : Prop :=
  g.N = N ∧ g.listHead.length = N ∧ ∀ v d, d ∈ g.adj v → 0 ≤ d ∧ d < (N : Int)

/-- What holds of the counters and the dfs array at every point of the traversal. -/
structure Inv (g : Graph) (N : Nat) (s : DState) : Prop where
  len : s.arr.length = N
  pop_pos : 1 ≤ s.popNo
  pop_le_push : s.popNo ≤ s.pushNo
  push_lt : ∀ v, pushOf s.arr v < s.pushNo
  pop_lt : ∀ v, popOf s.arr v < s.popNo
  fin_disc : ∀ v, popOf s.arr v ≠ 0 → pushOf s.arr v ≠ 0
  push_inj : ∀ u v, pushOf s.arr u ≠ 0 → pushOf s.arr u = pushOf s.arr v → u = v
  pop_inj : ∀ u v, popOf s.arr u ≠ 0 → popOf s.arr u = popOf s.arr v → u = v
  push_surj : ∀ t, 1 ≤ t → t < s.pushNo → ∃ v, pushOf s.arr v = t
  pop_surj : ∀ t, 1 ≤ t → t < s.popNo → ∃ v, popOf s.arr v = t
  count : s.pushNo + undisc s.arr = N + 1
  nest : ∀ u w, u ≠ w → popOf s.arr u ≠ 0 → popOf s.arr w ≠ 0 → Nested s.arr u w
  edge : ∀ u, popOf s.arr u ≠ 0 → ∀ d : Nat, (d : Int) ∈ g.adj u →
    pushOf s.arr d ≠ 0 ∧
      (pushOf s.arr u < pushOf s.arr d → popOf s.arr d ≠ 0 ∧ popOf s.arr d < popOf s.arr u)

/-- Vertex `w` can be reached from `r` along stored adjacency entries. -/
def Reach (g : Graph) (r w : Nat) : Prop :=
  Relation.ReflTransGen (fun a b : Nat => (b : Int) ∈ g.adj a) r w

/-- How a state `s2` extends an earlier state `s`: entries of discovered vertices are
kept, the two counters advance by the same amount, and every vertex discovered in
between is finished, numbered from the old counters on, and reachable from a vertex
of `S`. -/
structure Ext (g : Graph) (S : Nat → Prop) (s s2 : DState) : Prop where
  frame : ∀ w, pushOf s.arr w ≠ 0 →
    pushOf s2.arr w = pushOf s.arr w ∧ popOf s2.arr w = popOf s.arr w
  push_mono : s.pushNo ≤ s2.pushNo
  counters : s2.pushNo + s.popNo = s2.popNo + s.pushNo
  fresh : ∀ w, pushOf s.arr w = 0 → pushOf s2.arr w ≠ 0 →
    popOf s2.arr w ≠ 0 ∧ s.pushNo ≤ pushOf s2.arr w ∧ s.popNo ≤ popOf s2.arr w
  reach : ∀ w, pushOf s.arr w = 0 → pushOf s2.arr w ≠ 0 → ∃ r, S r ∧ Reach g r w

/-- What one call of `dfs` with depth budget `f` does on an undiscovered vertex, when
the budget covers the vertices that are still undiscovered. -/
def VisitOK (g : Graph) (N f : Nat) : Prop :=
  ∀ (s : DState) (v : Nat), Inv g N s → v < N → pushOf s.arr v = 0 → N + 1 ≤ f + s.pushNo →
    ∃ s2, dfs g f s (v : Int) = .ok s2 ∧ Inv g N s2 ∧ Ext g (fun r => r = v) s s2 ∧
      pushOf s2.arr v = s.pushNo ∧ popOf s2.arr v + 1 = s2.popNo

/-- The numbering the specification describes: one counter shared by discovery and
finish events, so that the `2 * N` numbers are pairwise distinct and fill `1 .. 2 * N`. -/
def SharedCounterNumbering (N : Nat) (arr : List DFSVertex) : Prop :=
  (∀ u, u < N → ∀ v, v < N → u ≠ v → pushOf arr u ≠ pushOf arr v) ∧
  (∀ u, u < N → ∀ v, v < N → u ≠ v → popOf arr u ≠ popOf arr v) ∧
  (∀ u, u < N → ∀ v, v < N → pushOf arr u ≠ popOf arr v) ∧
  (∀ t, 1 ≤ t → t ≤ 2 * N → ∃ v, v < N ∧ (pushOf arr v = t ∨ popOf arr v = t))

/-- The numbering the code produces: push numbers and pop numbers are each pairwise
distinct and each fill `1 .. N`. -/
def TwoCounterNumbering (N : Nat) (arr : List DFSVertex) : Prop :=
  (∀ v, v < N → 1 ≤ pushOf arr v ∧ pushOf arr v ≤ N ∧ 1 ≤ popOf arr v ∧ popOf arr v ≤ N) ∧
  (∀ u, u < N → ∀ v, v < N → u ≠ v → pushOf arr u ≠ pushOf arr v) ∧
  (∀ u, u < N → ∀ v, v < N → u ≠ v → popOf arr u ≠ popOf arr v) ∧
  (∀ t, 1 ≤ t → t ≤ N → ∃ v, v < N ∧ pushOf arr v = t) ∧
  (∀ t, 1 ≤ t → t ≤ N → ∃ v, v < N ∧ popOf arr v = t)

/-- Number of vertices whose visit encloses the visit of `v`: discovered before `v`
and finished after `v`. -/
def enclosing (arr : List DFSVertex) (v : Nat) : Nat :=
  ((Finset.range arr.length).filter
    fun w => pushOf arr w < pushOf arr v ∧ popOf arr v < popOf arr w).card

/-- Number of vertices whose visit is enclosed by the visit of `v`: discovered after `v`
and finished before `v`. -/
def enclosed (arr : List DFSVertex) (v : Nat) : Nat :=
  ((Finset.range arr.length).filter
    fun w => pushOf arr v < pushOf arr w ∧ popOf arr w < popOf arr v).card

/-- The integer interval from the push number to the pop number of `v` (empty when the
push number is the larger one). -/
def interval (arr : List DFSVertex) (v : Nat) : Finset Nat :=
  Finset.Icc (pushOf arr v) (popOf arr v)

/-- The state of `dfsWrapper` when its second loop reaches index `i` (after the
iterations `0 .. i-1`). -/
def outerUpTo (g : Graph) (i : Nat) : Except Err DState :=
  outerLoop g g.N (List.range i) (initState g.N)

/-- The value of the push counter when the second loop of `dfsWrapper` reaches index
`i` (0 if the loop does not get there). -/
def entryCounter (g : Graph) (i : Nat) : Nat :=
  match outerUpTo g i with
  | .ok s => s.pushNo
  | .error _ => 0

/-- Vertex `v` is discovered during iteration `r` of the second loop of `dfsWrapper`,
that is, by the call of `dfs` made for the entry vertex `r`. -/
def DiscoveredFrom (g : Graph) (r v : Nat) : Prop :=
  ∃ s s2, outerUpTo g r = .ok s ∧ outerUpTo g (r + 1) = .ok s2 ∧
    pushOf s.arr v = 0 ∧ pushOf s2.arr v ≠ 0

/-- Vertex `w` can be reached from `u` along directed edges of the edge list. -/
def Reachable (edges : List Edge) (u w : Nat) : Prop :=
  Relation.ReflTransGen (fun a b : Nat => (⟨(a : Int), (b : Int)⟩ : Edge) ∈ edges) u w

/-- The vertices in the order of their push numbers `1, 2, ...`. -/
def discoveryOrder (arr : List DFSVertex) : List Nat :=
  (List.range arr.length).filterMap fun t =>
    (List.range arr.length).find? fun v => pushOf arr v = t + 1

/-- The vertices in the order of their pop numbers `1, 2, ...`. -/
def finishOrder (arr : List DFSVertex) : List Nat :=
  (List.range arr.length).filterMap fun t =>
    (List.range arr.length).find? fun v => popOf arr v = t + 1

/-- Every source of every edge lies in `[0, N)` (nothing is asked of destinations). -/
def SourcesValid (N : Nat) (edges : List Edge) : Prop :=
  ∀ e ∈ edges, 0 ≤ e.source ∧ e.source < N

instance (N : Nat) (edges : List Edge) : Decidable (SourcesValid N edges) := by
  unfold SourcesValid; infer_instance

/-- Every finished vertex `w` that was discovered after `v` and finished before `v` can
be reached from `v`. -/
def DescReach (g : Graph) (arr : List DFSVertex) : Prop :=
  ∀ v w, popOf arr v ≠ 0 → popOf arr w ≠ 0 → pushOf arr v < pushOf arr w →
    popOf arr w < popOf arr v → Reach g v w

/-- Entry of the result of the reference traversal: discovery time and finish time of
the vertex with that index (discovery time 0 marks an unvisited vertex). -/
structure Times where
  discovery : Nat
  finish : Nat
deriving DecidableEq

/-- State of the reference traversal: the single shared counter `timeCounter` and the
result mapping. -/
structure RefState where
  timeCounter : Nat
  result : List Times
deriving DecidableEq

/-- Reference traversal, steps 2 and 3 of `Visit`: iterate the neighbors in the order of
the adjacency sequence and visit every neighbor that is not yet visited
(`discovery == 0`). -/
def refVisitLoop (visit : RefState → Int → Except Err RefState) :
    List Int → RefState → Except Err RefState
  | [], t => .ok t
  | d :: rest, t =>
    match getAt t.result d with
    | none => .error .outOfRange
    | some x =>
      if x.discovery = 0 then
        match visit t d with
        | .error e => .error e
        | .ok t2 => refVisitLoop visit rest t2
      else refVisitLoop visit rest t

/-- Reference traversal, the procedure `Visit(vertex)` of the specification, over the
adjacency sequences of the graph: record `discovery[vertex] = timeCounter` and increment
the counter, visit the unvisited neighbors in order, then record
`finish[vertex] = timeCounter` and increment the counter. The first argument bounds the
recursion depth. -/
def refVisit (g : Graph) : Nat → RefState → Int → Except Err RefState
  | 0, _, _ => .error .depth
  | fuel + 1, t, vertex =>
    match getAt t.result vertex with
    | none => .error .outOfRange
    | some x =>
      match setAt t.result vertex { x with discovery := t.timeCounter } with
      | none => .error .outOfRange
      | some r1 =>
        match getAt g.listHead vertex with
        | none => .error .outOfRange
        | some h =>
          match refVisitLoop (refVisit g fuel) h.ptr
              { timeCounter := t.timeCounter + 1, result := r1 } with
          | .error e => .error e
          | .ok t2 =>
            match getAt t2.result vertex with
            | none => .error .outOfRange
            | some y =>
              match setAt t2.result vertex { y with finish := t2.timeCounter } with
              | none => .error .outOfRange
              | some r3 => .ok { timeCounter := t2.timeCounter + 1, result := r3 }

/-- Reference traversal, initial state of `Run`: counter 1, every vertex unvisited. -/
def refInit (N : Nat) : RefState :=
  { timeCounter := 1, result := List.replicate N { discovery := 0, finish := 0 } }

/-- Reference traversal, outer loop of `Run`: over the vertex indices in ascending
order, `Visit` is invoked on every vertex that is still unvisited. -/
def refOuterLoop (g : Graph) (fuel : Nat) : List Nat → RefState → Except Err RefState
  | [], t => .ok t
  | i :: is, t =>
    match t.result[i]? with
    | none => .error .outOfRange
    | some x =>
      if x.discovery = 0 then
        match refVisit g fuel t (i : Int) with
        | .error e => .error e
        | .ok t2 => refOuterLoop g fuel is t2
      else refOuterLoop g fuel is t

/-- Reference traversal `Run(graph)` with one shared counter; the depth budget is the
vertex count. -/
def refRunDFS (g : Graph) : Except Err RefState :=
  refOuterLoop g g.N (List.range g.N) (refInit g.N)

/-- Reference program: the graph of the constructor traversed by the reference
traversal; returns the result mapping. -/
def refRun (N : Nat) (edges : List Edge) : Except Err (List Times) :=
  match mkGraph N edges with
  | .error e => .error e
  | .ok g =>
    match refRunDFS g with
    | .error e => .error e
    | .ok t => .ok t.result

/-- Discovery time of vertex `v` in a reference result (0 outside the mapping). -/
def discOf (res : List Times) (v : Nat) : Nat :=
  match res[v]? with
  | some x => x.discovery
  | none => 0

/-- Finish time of vertex `v` in a reference result (0 outside the mapping). -/
def finOf (res : List Times) (v : Nat) : Nat :=
  match res[v]? with
  | some x => x.finish
  | none => 0

/-- The state of the code and the state of the reference traversal agree: the same
vertices are discovered, and push numbers are ordered like discovery times, pop numbers
like finish times. -/
structure Sim (s : DState) (t : RefState) : Prop where
  len : t.result.length = s.arr.length
  push_pos : 1 ≤ s.pushNo
  pop_pos : 1 ≤ s.popNo
  time_pos : 1 ≤ t.timeCounter
  push_lt : ∀ v, pushOf s.arr v < s.pushNo
  pop_lt : ∀ v, popOf s.arr v < s.popNo
  disc_lt : ∀ v, discOf t.result v < t.timeCounter
  fin_lt : ∀ v, finOf t.result v < t.timeCounter
  zero : ∀ v, pushOf s.arr v = 0 ↔ discOf t.result v = 0
  push_ord : ∀ u w, pushOf s.arr u < pushOf s.arr w ↔ discOf t.result u < discOf t.result w
  pop_ord : ∀ u w, popOf s.arr u < popOf s.arr w ↔ finOf t.result u < finOf t.result w

/-- The visit of `w` lies inside the visit of `u`: `w` is discovered after `u` and
finished before `u`. -/
def Inside (arr : List DFSVertex) (w u : Nat) : Prop :=
  pushOf arr u < pushOf arr w ∧ popOf arr w < popOf arr u

/-- The visit of `u`: the vertices discovered and finished between the discovery and
the finish of `u`, that is, with push number at least that of `u` and pop number at
most that of `u` (`u` itself included). -/
def visitSet (arr : List DFSVertex) (u : Nat) : Finset Nat :=
  (Finset.range arr.length).filter
    fun w => pushOf arr u ≤ pushOf arr w ∧ popOf arr w ≤ popOf arr u

/-- The integers between the push number and the pop number of `v`, whichever of the
two is the larger one. -/
def span (arr : List DFSVertex) (v : Nat) : Finset Nat :=
  Finset.Icc (min (pushOf arr v) (popOf arr v)) (max (pushOf arr v) (popOf arr v))

/-- Among finished vertices, two visits that both enclose the visit of a third vertex
are nested: the one discovered later is finished earlier. -/
def Laminar (arr : List DFSVertex) : Prop :=
  ∀ u v w, popOf arr u ≠ 0 → popOf arr v ≠ 0 → popOf arr w ≠ 0 →
    Inside arr w u → Inside arr w v → pushOf arr u < pushOf arr v → popOf arr v < popOf arr u

/-! ## Lemmas and theorems -/

theorem getAt_natCast {α : Type} (a : List α) (v : Nat) : getAt a (v : Int) = a[v]? := by
  simp [getAt]

theorem setAt_natCast {α : Type} (a : List α) (v : Nat) (x : α) (h : v < a.length) :
    setAt a (v : Int) x = some (a.set v x) := by
  simp [setAt, h]

theorem initHeads_wf (N : Nat) : HeadsWF N (initHeads N) := by
  refine ⟨by simp [initHeads], ?_⟩
  intro v h hv
  simp only [initHeads, List.getElem?_map, Option.map_eq_some'] at hv
  obtain ⟨a, ha, rfl⟩ := hv
  have hlt : v < (List.range N).length := by
    by_contra hc
    rw [List.getElem?_eq_none (not_lt.mp hc)] at ha
    cases ha
  rw [List.getElem?_eq_getElem hlt, List.getElem_range] at ha
  cases ha
  rfl

theorem ptrOf_initHeads (N v : Nat) : ptrOf (initHeads N) v = [] := by
  unfold ptrOf
  split
  · rename_i h hv
    simp only [initHeads, List.getElem?_map, Option.map_eq_some'] at hv
    obtain ⟨a, _, rfl⟩ := hv
    rfl
  · rfl

theorem ptrOf_set (lh : List AdjNode) (u : Nat) (x : AdjNode) (hu : u < lh.length) (v : Nat) :
    ptrOf (lh.set u x) v = if u = v then x.ptr else ptrOf lh v := by
  unfold ptrOf
  by_cases huv : u = v
  · subst huv
    simp [List.getElem?_set, hu]
  · simp [List.getElem?_set, huv]

theorem headsWF_set (N : Nat) (lh : List AdjNode) (u : Nat) (x : AdjNode)
    (hwf : HeadsWF N lh) (hx : x.data = (u : Int)) : HeadsWF N (lh.set u x) := by
  refine ⟨by simpa using hwf.1, ?_⟩
  intro v h hv
  rw [List.getElem?_set] at hv
  split at hv
  · rename_i huv
    split at hv
    · cases hv
      rw [hx, huv]
    · cases hv
  · exact hwf.2 v h hv

/-- One constructor step on a well-formed head array: the destination is put in front
of the chain of the source, whichever branch `addAdjNode` takes. -/
theorem addEdge_spec (N : Nat) (lh : List AdjNode) (e : Edge) (u : Nat)
    (hwf : HeadsWF N lh) (hsrc : e.source = (u : Int)) (hu : u < N) :
    ∃ lh2, addEdge lh e = .ok lh2 ∧ HeadsWF N lh2 ∧
      ∀ v, ptrOf lh2 v = if u = v then e.destination :: ptrOf lh u else ptrOf lh v := by
  have hlen : u < lh.length := by rw [hwf.1]; exact hu
  have hget : lh[u]? = some lh[u] := List.getElem?_eq_getElem hlen
  have hdata : (lh[u]).data = (u : Int) := hwf.2 u _ hget
  have hptr : ptrOf lh u = (lh[u]).ptr := by simp [ptrOf, hget]
  by_cases hemp : (lh[u]).ptr = []
  · refine ⟨(lh.set u { lh[u] with ptr := [e.destination] }).set u
      { lh[u] with ptr := [e.destination] }, ?_, ?_, ?_⟩
    · simp [addEdge, addAdjNode, hsrc, getAt_natCast, hget, hdata, hemp, setAt_natCast, hlen]
    · exact headsWF_set N _ u _ (headsWF_set N _ u _ hwf hdata) hdata
    · intro v
      rw [ptrOf_set _ _ _ (by simpa using hlen), ptrOf_set _ _ _ hlen, hptr, hemp]
      by_cases huv : u = v <;> simp [huv]
  · refine ⟨lh.set u { lh[u] with ptr := e.destination :: (lh[u]).ptr }, ?_, ?_, ?_⟩
    · simp [addEdge, addAdjNode, hsrc, getAt_natCast, hget, hdata, hemp, setAt_natCast, hlen]
    · exact headsWF_set N _ u _ hwf hdata
    · intro v
      rw [ptrOf_set _ _ _ hlen, hptr]

theorem adjSpec_cons (e : Edge) (es : List Edge) (v : Nat) :
    adjSpec (e :: es) v
      = adjSpec es v ++ (if e.source = (v : Int) then [e.destination] else []) := by
  unfold adjSpec
  by_cases h : e.source = (v : Int) <;> simp [List.filter_cons, h]

/-- The edge loop of the constructor on valid edges: it succeeds and puts, in front of
every chain, the destinations of the new edges of that source, most recent first. -/
theorem addEdges_spec (N : Nat) (es : List Edge) :
    ∀ lh, HeadsWF N lh → ValidEdges N es →
      ∃ lh2, addEdges lh es = .ok lh2 ∧ HeadsWF N lh2 ∧
        ∀ v, ptrOf lh2 v = adjSpec es v ++ ptrOf lh v := by
  induction es with
  | nil =>
    intro lh hwf _
    exact ⟨lh, rfl, hwf, fun v => by simp [adjSpec]⟩
  | cons e es ih =>
    intro lh hwf hval
    have he := hval e (List.mem_cons_self _ _)
    obtain ⟨u, hu⟩ := Int.eq_ofNat_of_zero_le he.1
    have huN : u < N := by have := he.2.1; rw [hu] at this; exact_mod_cast this
    obtain ⟨lh1, h1, hwf1, hp1⟩ := addEdge_spec N lh e u hwf hu huN
    obtain ⟨lh2, h2, hwf2, hp2⟩ := ih lh1 hwf1 (fun x hx => hval x (List.mem_cons_of_mem _ hx))
    refine ⟨lh2, by simp [addEdges, h1, h2], hwf2, ?_⟩
    intro v
    rw [hp2 v, hp1 v, adjSpec_cons, hu]
    by_cases huv : u = v
    · subst huv; simp
    · have : ¬ ((u : Int) = (v : Int)) := by exact_mod_cast huv
      simp [huv, this]

/-- The constructor on valid edges: the graph is built and the chain of every vertex
is `adjSpec`. -/
theorem mkGraph_spec (N : Nat) (edges : List Edge) (hval : ValidEdges N edges) :
    ∃ g, mkGraph N edges = .ok g ∧ g.N = N ∧ HeadsWF N g.listHead ∧
      ∀ v, g.adj v = adjSpec edges v := by
  obtain ⟨lh, h1, hwf, hp⟩ := addEdges_spec N edges (initHeads N) (initHeads_wf N) hval
  refine ⟨{ N := N, listHead := lh }, by simp [mkGraph, h1], rfl, hwf, ?_⟩
  intro v
  have := hp v
  rw [ptrOf_initHeads, List.append_nil] at this
  exact this

theorem mem_adjSpec (edges : List Edge) (v : Nat) (d : Int) :
    d ∈ adjSpec edges v ↔ (⟨(v : Int), d⟩ : Edge) ∈ edges := by
  unfold adjSpec
  simp only [List.mem_reverse, List.mem_map, List.mem_filter, decide_eq_true_eq]
  constructor
  · rintro ⟨e, ⟨he, hs⟩, rfl⟩
    have : e = ⟨(v : Int), e.destination⟩ := by cases e; simp_all
    rw [← this]; exact he
  · intro h
    exact ⟨_, ⟨h, rfl⟩, rfl⟩

theorem pushOf_set (arr : List DFSVertex) (v : Nat) (x : DFSVertex) (hv : v < arr.length)
    (w : Nat) : pushOf (arr.set v x) w = if v = w then x.push else pushOf arr w := by
  unfold pushOf
  by_cases hvw : v = w
  · subst hvw
    simp [List.getElem?_set, hv]
  · simp [List.getElem?_set, hvw]

theorem popOf_set (arr : List DFSVertex) (v : Nat) (x : DFSVertex) (hv : v < arr.length)
    (w : Nat) : popOf (arr.set v x) w = if v = w then x.pop else popOf arr w := by
  unfold popOf
  by_cases hvw : v = w
  · subst hvw
    simp [List.getElem?_set, hv]
  · simp [List.getElem?_set, hvw]

theorem pushOf_eq_getElem (arr : List DFSVertex) (v : Nat) (hv : v < arr.length) :
    pushOf arr v = (arr[v]).push := by
  simp [pushOf, List.getElem?_eq_getElem hv]

theorem popOf_eq_getElem (arr : List DFSVertex) (v : Nat) (hv : v < arr.length) :
    popOf arr v = (arr[v]).pop := by
  simp [popOf, List.getElem?_eq_getElem hv]

theorem pushOf_of_le (arr : List DFSVertex) (v : Nat) (hv : arr.length ≤ v) :
    pushOf arr v = 0 := by
  simp [pushOf, List.getElem?_eq_none hv]

theorem popOf_of_le (arr : List DFSVertex) (v : Nat) (hv : arr.length ≤ v) :
    popOf arr v = 0 := by
  simp [popOf, List.getElem?_eq_none hv]

theorem countP_set_add {α : Type} (p : α → Bool) :
    ∀ (l : List α) (i : Nat) (x : α) (h : i < l.length),
      (l.set i x).countP p + (if p l[i] then 1 else 0)
        = l.countP p + (if p x then 1 else 0) := by
  intro l
  induction l with
  | nil => intro i x h; simp at h
  | cons a l ih =>
    intro i x h
    cases i with
    | zero =>
      simp only [List.set_cons_zero, List.countP_cons, List.getElem_cons_zero]
      omega
    | succ i =>
      have h2 : i < l.length := by simpa using h
      have := ih i x h2
      simp only [List.set_cons_succ, List.countP_cons, List.getElem_cons_succ]
      omega

/-- Marking an undiscovered vertex lowers the number of undiscovered vertices by one. -/
theorem undisc_mark (arr : List DFSVertex) (v : Nat) (x : DFSVertex) (hv : v < arr.length)
    (h0 : pushOf arr v = 0) (hx : x.push ≠ 0) : undisc (arr.set v x) + 1 = undisc arr := by
  have h := countP_set_add (fun y : DFSVertex => decide (y.push = 0)) arr v x hv
  rw [pushOf_eq_getElem arr v hv] at h0
  simp only [h0, hx, decide_True, decide_False, if_true] at h
  simpa [undisc] using h

/-- Writing an entry without changing whether its push number is zero keeps the number
of undiscovered vertices. -/
theorem undisc_keep (arr : List DFSVertex) (v : Nat) (x : DFSVertex) (hv : v < arr.length)
    (hx : x.push = (arr[v]).push) : undisc (arr.set v x) = undisc arr := by
  have h := countP_set_add (fun y : DFSVertex => decide (y.push = 0)) arr v x hv
  simp only [hx] at h
  unfold undisc
  omega

theorem undisc_pos (arr : List DFSVertex) (v : Nat) (hv : v < arr.length)
    (h0 : pushOf arr v = 0) : 0 < undisc arr := by
  unfold undisc
  rw [List.countP_pos_iff]
  rw [pushOf_eq_getElem arr v hv] at h0
  exact ⟨arr[v], List.getElem_mem hv, by simpa using h0⟩

theorem undisc_eq_zero (arr : List DFSVertex)
    (h : ∀ v, v < arr.length → pushOf arr v ≠ 0) : undisc arr = 0 := by
  unfold undisc
  rw [List.countP_eq_zero]
  intro x hx
  obtain ⟨i, hi, rfl⟩ := List.getElem_of_mem hx
  have := h i hi
  rw [pushOf_eq_getElem arr i hi] at this
  simpa using this

theorem pushOf_mark (arr : List DFSVertex) (v : Nat) (x : DFSVertex) (p : Nat)
    (hx : arr[v]? = some x) (w : Nat) :
    pushOf (arr.set v { x with push := p }) w = if v = w then p else pushOf arr w := by
  have hv : v < arr.length := (List.getElem?_eq_some_iff.mp hx).1
  rw [pushOf_set arr v _ hv]

theorem popOf_mark (arr : List DFSVertex) (v : Nat) (x : DFSVertex) (p : Nat)
    (hx : arr[v]? = some x) (w : Nat) :
    popOf (arr.set v { x with push := p }) w = popOf arr w := by
  have hv : v < arr.length := (List.getElem?_eq_some_iff.mp hx).1
  rw [popOf_set arr v _ hv]
  by_cases hvw : v = w
  · subst hvw; simp [popOf, hx]
  · simp [hvw]

theorem pushOf_finish (arr : List DFSVertex) (v : Nat) (x : DFSVertex) (p : Nat)
    (hx : arr[v]? = some x) (w : Nat) :
    pushOf (arr.set v { x with pop := p }) w = pushOf arr w := by
  have hv : v < arr.length := (List.getElem?_eq_some_iff.mp hx).1
  rw [pushOf_set arr v _ hv]
  by_cases hvw : v = w
  · subst hvw; simp [pushOf, hx]
  · simp [hvw]

theorem popOf_finish (arr : List DFSVertex) (v : Nat) (x : DFSVertex) (p : Nat)
    (hx : arr[v]? = some x) (w : Nat) :
    popOf (arr.set v { x with pop := p }) w = if v = w then p else popOf arr w := by
  have hv : v < arr.length := (List.getElem?_eq_some_iff.mp hx).1
  rw [popOf_set arr v _ hv]

theorem Ext.refl (g : Graph) (S : Nat → Prop) (s : DState) : Ext g S s s where
  frame := fun _ _ => ⟨rfl, rfl⟩
  push_mono := le_refl _
  counters := Nat.add_comm _ _
  fresh := fun _ h0 h1 => absurd h0 h1
  reach := fun _ h0 h1 => absurd h0 h1

theorem Ext.trans (g : Graph) (S1 S2 S : Nat → Prop) (s s2 s3 : DState)
    (h1 : Ext g S1 s s2) (h2 : Ext g S2 s2 s3)
    (hS1 : ∀ r, S1 r → S r) (hS2 : ∀ r, S2 r → S r) : Ext g S s s3 where
  frame := by
    intro w hw
    obtain ⟨a, b⟩ := h1.frame w hw
    obtain ⟨c, d⟩ := h2.frame w (by rw [a]; exact hw)
    exact ⟨c.trans a, d.trans b⟩
  push_mono := le_trans h1.push_mono h2.push_mono
  counters := by
    have := h1.counters
    have := h2.counters
    omega
  fresh := by
    intro w h0 h3
    have c1 := h1.counters
    have m1 := h1.push_mono
    by_cases hmid : pushOf s2.arr w = 0
    · obtain ⟨a, b, c⟩ := h2.fresh w hmid h3
      exact ⟨a, by omega, by omega⟩
    · obtain ⟨a, b, c⟩ := h1.fresh w h0 hmid
      obtain ⟨e, f⟩ := h2.frame w hmid
      rw [e, f]
      exact ⟨a, b, c⟩
  reach := by
    intro w h0 h3
    by_cases hmid : pushOf s2.arr w = 0
    · obtain ⟨r, hr, hp⟩ := h2.reach w hmid h3
      exact ⟨r, hS2 r hr, hp⟩
    · obtain ⟨r, hr, hp⟩ := h1.reach w h0 hmid
      exact ⟨r, hS1 r hr, hp⟩

/-- The first statement pair of `dfs`, `_arr[_node].push = _pushNo++`, on an
undiscovered vertex keeps the invariants. -/
theorem inv_mark (g : Graph) (N : Nat) (s : DState) (v : Nat) (x : DFSVertex)
    (h : Inv g N s) (hx : s.arr[v]? = some x) (h0 : pushOf s.arr v = 0) :
    Inv g N { s with pushNo := s.pushNo + 1, arr := s.arr.set v { x with push := s.pushNo } } := by
  have hv : v < s.arr.length := (List.getElem?_eq_some_iff.mp hx).1
  have hpush := pushOf_mark s.arr v x s.pushNo hx
  have hpop := popOf_mark s.arr v x s.pushNo hx
  have hpos := h.pop_pos
  have hle := h.pop_le_push
  have hpv : popOf s.arr v = 0 := by
    by_contra hc
    exact h.fin_disc v hc h0
  constructor
  · simpa using h.len
  · exact hpos
  · show s.popNo ≤ s.pushNo + 1
    omega
  · intro w
    show pushOf _ w < s.pushNo + 1
    rw [hpush]
    have := h.push_lt w
    split <;> omega
  · intro w
    show popOf _ w < s.popNo
    rw [hpop]
    exact h.pop_lt w
  · intro w
    show popOf _ w ≠ 0 → pushOf _ w ≠ 0
    rw [hpop, hpush]
    intro hw
    have := h.fin_disc w hw
    split <;> omega
  · intro u w
    show pushOf _ u ≠ 0 → pushOf _ u = pushOf _ w → u = w
    rw [hpush, hpush]
    intro hu he
    have hu2 := h.push_lt u
    have hw2 := h.push_lt w
    by_cases hvu : v = u
    · by_cases hvw : v = w
      · rw [← hvu, ← hvw]
      · rw [if_pos hvu, if_neg hvw] at he
        omega
    · by_cases hvw : v = w
      · rw [if_neg hvu, if_pos hvw] at he
        omega
      · rw [if_neg hvu] at hu
        rw [if_neg hvu, if_neg hvw] at he
        exact h.push_inj u w hu he
  · intro u w
    show popOf _ u ≠ 0 → popOf _ u = popOf _ w → u = w
    rw [hpop, hpop]
    exact h.pop_inj u w
  · intro t ht1 ht2
    show ∃ w, pushOf _ w = t
    have ht2 : t < s.pushNo + 1 := ht2
    by_cases hts : t = s.pushNo
    · exact ⟨v, by rw [hpush]; simp [hts]⟩
    · obtain ⟨w, hw⟩ := h.push_surj t ht1 (by omega)
      refine ⟨w, ?_⟩
      rw [hpush]
      have : v ≠ w := by
        intro hvw
        rw [← hvw, h0] at hw
        omega
      simp [this, hw]
  · intro t ht1 ht2
    show ∃ w, popOf _ w = t
    obtain ⟨w, hw⟩ := h.pop_surj t ht1 ht2
    exact ⟨w, by rw [hpop]; exact hw⟩
  · have e := undisc_mark s.arr v { x with push := s.pushNo } hv h0 (by show s.pushNo ≠ 0; omega)
    have c := h.count
    show s.pushNo + 1 + undisc (s.arr.set v { x with push := s.pushNo }) = N + 1
    omega
  · intro u w huw
    show popOf _ u ≠ 0 → popOf _ w ≠ 0 → Nested _ u w
    unfold Nested
    rw [hpop, hpop, hpush, hpush]
    intro hu hw
    have hvu : v ≠ u := by intro hc; rw [← hc] at hu; exact hu hpv
    have hvw : v ≠ w := by intro hc; rw [← hc] at hw; exact hw hpv
    simp only [hvu, hvw, if_false]
    exact h.nest u w huw hu hw
  · intro u
    show popOf _ u ≠ 0 → ∀ d : Nat, (d : Int) ∈ g.adj u → pushOf _ d ≠ 0 ∧
      (pushOf _ u < pushOf _ d → popOf _ d ≠ 0 ∧ popOf _ d < popOf _ u)
    rw [hpop, hpush]
    intro hu d hd
    rw [hpop, hpush]
    have hvu : v ≠ u := by intro hc; rw [← hc] at hu; exact hu hpv
    obtain ⟨a, b⟩ := h.edge u hu d hd
    have hvd : v ≠ d := by intro hc; rw [← hc] at a; exact a h0
    simp only [hvu, hvd, if_false]
    exact ⟨a, b⟩

/-- The last statement pair of `dfs`, `_arr[_node].pop = _popNo++`, keeps the invariants
when the vertex is open, every finished vertex lies before it or inside it, and all
its adjacency entries are discovered. -/
theorem inv_finish (g : Graph) (N : Nat) (s : DState) (v : Nat) (x : DFSVertex)
    (h : Inv g N s) (hx : s.arr[v]? = some x) (hd : pushOf s.arr v ≠ 0)
    (h0 : popOf s.arr v = 0) (hlt : s.popNo < s.pushNo)
    (hn : ∀ w, w ≠ v → popOf s.arr w ≠ 0 →
      popOf s.arr w < pushOf s.arr v ∨ pushOf s.arr v < pushOf s.arr w)
    (he : ∀ d : Nat, (d : Int) ∈ g.adj v →
      pushOf s.arr d ≠ 0 ∧ (pushOf s.arr v < pushOf s.arr d → popOf s.arr d ≠ 0)) :
    Inv g N { s with popNo := s.popNo + 1, arr := s.arr.set v { x with pop := s.popNo } } := by
  have hv : v < s.arr.length := (List.getElem?_eq_some_iff.mp hx).1
  have hpush := pushOf_finish s.arr v x s.popNo hx
  have hpop := popOf_finish s.arr v x s.popNo hx
  have hpos := h.pop_pos
  constructor
  · simpa using h.len
  · show 1 ≤ s.popNo + 1
    omega
  · show s.popNo + 1 ≤ s.pushNo
    omega
  · intro w
    show pushOf _ w < s.pushNo
    rw [hpush]
    exact h.push_lt w
  · intro w
    show popOf _ w < s.popNo + 1
    rw [hpop]
    have := h.pop_lt w
    split <;> omega
  · intro w
    show popOf _ w ≠ 0 → pushOf _ w ≠ 0
    rw [hpop, hpush]
    by_cases hvw : v = w
    · intro _
      rw [← hvw]
      exact hd
    · rw [if_neg hvw]
      exact h.fin_disc w
  · intro u w
    show pushOf _ u ≠ 0 → pushOf _ u = pushOf _ w → u = w
    rw [hpush, hpush]
    exact h.push_inj u w
  · intro u w
    show popOf _ u ≠ 0 → popOf _ u = popOf _ w → u = w
    rw [hpop, hpop]
    intro hu he
    have hu2 := h.pop_lt u
    have hw2 := h.pop_lt w
    by_cases hvu : v = u
    · by_cases hvw : v = w
      · rw [← hvu, ← hvw]
      · rw [if_pos hvu, if_neg hvw] at he
        omega
    · by_cases hvw : v = w
      · rw [if_neg hvu, if_pos hvw] at he
        omega
      · rw [if_neg hvu] at hu
        rw [if_neg hvu, if_neg hvw] at he
        exact h.pop_inj u w hu he
  · intro t ht1 ht2
    show ∃ w, pushOf _ w = t
    obtain ⟨w, hw⟩ := h.push_surj t ht1 ht2
    exact ⟨w, by rw [hpush]; exact hw⟩
  · intro t ht1 ht2
    show ∃ w, popOf _ w = t
    have ht2 : t < s.popNo + 1 := ht2
    by_cases hts : t = s.popNo
    · exact ⟨v, by rw [hpop]; simp [hts]⟩
    · obtain ⟨w, hw⟩ := h.pop_surj t ht1 (by omega)
      refine ⟨w, ?_⟩
      rw [hpop]
      have : v ≠ w := by
        intro hvw
        rw [← hvw, h0] at hw
        omega
      simp [this, hw]
  · have e := undisc_keep s.arr v { x with pop := s.popNo } hv
      (by have := (List.getElem?_eq_some_iff.mp hx).2; rw [this])
    have c := h.count
    show s.pushNo + undisc (s.arr.set v { x with pop := s.popNo }) = N + 1
    omega
  · intro u w huw
    show popOf _ u ≠ 0 → popOf _ w ≠ 0 → Nested _ u w
    unfold Nested
    rw [hpop, hpop, hpush, hpush]
    intro hu hw
    by_cases hvu : v = u
    · have hvw : v ≠ w := fun hc => huw (hvu.symm.trans hc)
      rw [if_neg hvw] at hw
      rw [if_pos hvu, if_neg hvw]
      have hw2 := h.pop_lt w
      rcases hn w (Ne.symm hvw) hw with a | a
      · rw [hvu] at a
        exact Or.inr (Or.inl a)
      · rw [hvu] at a
        exact Or.inr (Or.inr (Or.inl ⟨a, hw2⟩))
    · rw [if_neg hvu] at hu
      rw [if_neg hvu]
      by_cases hvw : v = w
      · rw [if_pos hvw]
        have hu2 := h.pop_lt u
        rcases hn u (Ne.symm hvu) hu with a | a
        · rw [hvw] at a
          exact Or.inl a
        · rw [hvw] at a
          exact Or.inr (Or.inr (Or.inr ⟨a, hu2⟩))
      · rw [if_neg hvw] at hw
        rw [if_neg hvw]
        exact h.nest u w huw hu hw
  · intro u
    show popOf _ u ≠ 0 → ∀ d : Nat, (d : Int) ∈ g.adj u → pushOf _ d ≠ 0 ∧
      (pushOf _ u < pushOf _ d → popOf _ d ≠ 0 ∧ popOf _ d < popOf _ u)
    rw [hpop, hpush]
    intro hu d hdm
    rw [hpop, hpush]
    by_cases hvu : v = u
    · rw [if_pos hvu]
      rw [← hvu] at hdm
      obtain ⟨a, b⟩ := he d hdm
      refine ⟨a, fun hl => ?_⟩
      rw [← hvu] at hl
      have hvd : v ≠ d := by intro hc; rw [← hc] at hl; omega
      rw [if_neg hvd]
      exact ⟨b hl, h.pop_lt d⟩
    · rw [if_neg hvu] at hu
      rw [if_neg hvu]
      obtain ⟨a, b⟩ := h.edge u hu d hdm
      refine ⟨a, fun hl => ?_⟩
      obtain ⟨b1, b2⟩ := b hl
      have hvd : v ≠ d := by intro hc; rw [← hc] at b1; exact b1 h0
      rw [if_neg hvd]
      exact ⟨b1, b2⟩

/-- The `while` loop of `dfs` over a chain of in-range destinations. -/
theorem dfsLoop_spec (g : Graph) (N f : Nat) (hvisit : VisitOK g N f) :
    ∀ (l : List Int) (s : DState), (∀ d ∈ l, 0 ≤ d ∧ d < (N : Int)) → Inv g N s →
      N + 1 ≤ f + s.pushNo →
      ∃ s2, dfsLoop (dfs g f) l s = .ok s2 ∧ Inv g N s2 ∧
        Ext g (fun r => (r : Int) ∈ l) s s2 ∧
        ∀ d : Nat, (d : Int) ∈ l → pushOf s2.arr d ≠ 0 := by
  intro l
  induction l with
  | nil =>
    intro s _ hinv _
    exact ⟨s, rfl, hinv, Ext.refl g _ s, fun d hd => by simp at hd⟩
  | cons d rest ih =>
    intro s hrange hinv hfuel
    have hd := hrange d (List.mem_cons_self _ _)
    obtain ⟨w, hw⟩ := Int.eq_ofNat_of_zero_le hd.1
    have hwN : w < N := by have := hd.2; rw [hw] at this; exact_mod_cast this
    have hrest : ∀ d ∈ rest, 0 ≤ d ∧ d < (N : Int) :=
      fun y hy => hrange y (List.mem_cons_of_mem _ hy)
    have hwl : w < s.arr.length := by rw [hinv.len]; exact hwN
    have hget : s.arr[w]? = some s.arr[w] := List.getElem?_eq_getElem hwl
    have hpw : pushOf s.arr w = (s.arr[w]).push := pushOf_eq_getElem s.arr w hwl
    subst hw
    by_cases hz : (s.arr[w]).push = 0
    · obtain ⟨s1, h1, hinv1, hext1, hp1, _⟩ := hvisit s w hinv hwN (hpw.trans hz) hfuel
      have hm := hext1.push_mono
      obtain ⟨s2, h2, hinv2, hext2, hall2⟩ := ih s1 hrest hinv1 (by omega)
      refine ⟨s2, ?_, hinv2, ?_, ?_⟩
      · simp only [dfsLoop, getAt_natCast, hget, hz, if_true, h1, h2]
      · exact Ext.trans g _ _ _ s s1 s2 hext1 hext2
          (fun r hr => by rw [hr]; exact List.mem_cons_self _ _)
          (fun r hr => List.mem_cons_of_mem _ hr)
      · intro y hy
        rcases List.mem_cons.mp hy with hy | hy
        · have hyw : y = w := by exact_mod_cast hy
          subst hyw
          have hne : pushOf s1.arr y ≠ 0 := by
            rw [hp1]
            have := hinv.pop_pos
            have := hinv.pop_le_push
            omega
          rw [(hext2.frame y hne).1]
          exact hne
        · exact hall2 y hy
    · obtain ⟨s2, h2, hinv2, hext2, hall2⟩ := ih s hrest hinv hfuel
      refine ⟨s2, ?_, hinv2, ?_, ?_⟩
      · simp only [dfsLoop, getAt_natCast, hget, hz, if_false, h2]
      · exact Ext.trans g _ _ _ s s s2 (Ext.refl g (fun _ => False) s) hext2
          (fun r hr => hr.elim) (fun r hr => List.mem_cons_of_mem _ hr)
      · intro y hy
        rcases List.mem_cons.mp hy with hy | hy
        · have hyw : y = w := by exact_mod_cast hy
          subst hyw
          have hne : pushOf s.arr y ≠ 0 := by rw [hpw]; exact hz
          rw [(hext2.frame y hne).1]
          exact hne
        · exact hall2 y hy

theorem adj_eq_ptr (g : Graph) (v : Nat) (h : AdjNode) (hh : g.listHead[v]? = some h) :
    g.adj v = h.ptr := by
  simp [Graph.adj, hh]

/-- Main lemma on `dfs`: on a well-formed graph, called on an undiscovered vertex with a
depth budget that covers the undiscovered vertices, it returns normally, keeps the
invariants and extends the state. -/
theorem dfs_spec (g : Graph) (N : Nat) (hg : GraphWF g N) : ∀ f, VisitOK g N f := by
  intro f
  induction f with
  | zero =>
    intro s v hinv hv h0 hfuel
    have hvl : v < s.arr.length := by rw [hinv.len]; exact hv
    have := undisc_pos s.arr v hvl h0
    have := hinv.count
    omega
  | succ f ih =>
    intro s v hinv hv h0 hfuel
    have hvl : v < s.arr.length := by rw [hinv.len]; exact hv
    have hx : s.arr[v]? = some s.arr[v] := List.getElem?_eq_getElem hvl
    have hvh : v < g.listHead.length := by rw [hg.2.1]; exact hv
    have hh : g.listHead[v]? = some g.listHead[v] := List.getElem?_eq_getElem hvh
    have hadj := adj_eq_ptr g v _ hh
    have hpos := hinv.pop_pos
    have hle := hinv.pop_le_push
    have hpv : popOf s.arr v = 0 := by
      by_contra hc
      exact hinv.fin_disc v hc h0
    -- the vertex is marked
    have hinv1 := inv_mark g N s v _ hinv hx h0
    have hpush1 := pushOf_mark s.arr v _ s.pushNo hx
    have hpop1 := popOf_mark s.arr v _ s.pushNo hx
    -- the loop over its chain
    obtain ⟨s2, hloop, hinv2, hext, hall⟩ := dfsLoop_spec g N f ih (g.listHead[v]).ptr _
      (fun d hd => hg.2.2 v d (by rw [hadj]; exact hd)) hinv1
      (by show N + 1 ≤ f + (s.pushNo + 1); omega)
    have hframe := hext.frame
    have hfresh := hext.fresh
    have hmono : s.pushNo + 1 ≤ s2.pushNo := hext.push_mono
    have hcnt : s2.pushNo + s.popNo = s2.popNo + (s.pushNo + 1) := hext.counters
    simp only [] at hframe hfresh
    have hv1 : pushOf (s.arr.set v { s.arr[v] with push := s.pushNo }) v ≠ 0 := by
      rw [hpush1]; simp; omega
    have hpv2 : pushOf s2.arr v = s.pushNo := by
      rw [(hframe v hv1).1, hpush1]; simp
    have hqv2 : popOf s2.arr v = 0 := by
      rw [(hframe v hv1).2, hpop1]; exact hpv
    have hvl2 : v < s2.arr.length := by rw [hinv2.len]; exact hv
    have hy : s2.arr[v]? = some s2.arr[v] := List.getElem?_eq_getElem hvl2
    -- old vertices keep their entries during the loop
    have hold : ∀ w, pushOf s.arr w ≠ 0 →
        pushOf s2.arr w = pushOf s.arr w ∧ popOf s2.arr w = popOf s.arr w := by
      intro w hw
      have hvw : v ≠ w := by intro hc; rw [← hc] at hw; exact hw h0
      have h1 : pushOf (s.arr.set v { s.arr[v] with push := s.pushNo }) w = pushOf s.arr w := by
        rw [hpush1, if_neg hvw]
      obtain ⟨a, b⟩ := hframe w (by rw [h1]; exact hw)
      exact ⟨a.trans h1, b.trans (hpop1 w)⟩
    -- vertices discovered during the loop
    have hnew : ∀ w, w ≠ v → pushOf s.arr w = 0 → pushOf s2.arr w ≠ 0 →
        popOf s2.arr w ≠ 0 ∧ s.pushNo + 1 ≤ pushOf s2.arr w ∧ s.popNo ≤ popOf s2.arr w := by
      intro w hwv hw0 hw2
      have h1 : pushOf (s.arr.set v { s.arr[v] with push := s.pushNo }) w = 0 := by
        rw [hpush1, if_neg (Ne.symm hwv)]; exact hw0
      exact hfresh w h1 hw2
    -- the vertex is finished
    have hinv3 := inv_finish g N s2 v _ hinv2 hy (by rw [hpv2]; omega) hqv2 (by omega)
      (by
        intro w hwv hw
        by_cases hw0 : pushOf s.arr w = 0
        · right
          have := (hnew w hwv hw0 (hinv2.fin_disc w hw)).2.1
          omega
        · left
          rw [(hold w hw0).2, hpv2]
          have := hinv.pop_lt w
          omega)
      (by
        intro d hd
        have hd2 : pushOf s2.arr d ≠ 0 := hall d (by rw [← hadj]; exact hd)
        refine ⟨hd2, fun hl => ?_⟩
        by_cases hd0 : pushOf s.arr d = 0
        · have hdv : d ≠ v := by intro hc; rw [hc] at hl; omega
          exact (hnew d hdv hd0 hd2).1
        · rw [(hold d hd0).1, hpv2] at hl
          have := hinv.push_lt d
          omega)
    have hpush3 := pushOf_finish s2.arr v _ s2.popNo hy
    have hpop3 := popOf_finish s2.arr v _ s2.popNo hy
    refine ⟨{ s2 with popNo := s2.popNo + 1,
                      arr := s2.arr.set v { s2.arr[v] with pop := s2.popNo } }, ?_, hinv3, ?_, ?_, ?_⟩
    · simp only [dfs, getAt_natCast, hh, hx, setAt_natCast _ _ _ hvl, hloop, hy,
        setAt_natCast _ _ _ hvl2]
    · constructor
      · intro w hw
        show pushOf (s2.arr.set v _) w = _ ∧ popOf (s2.arr.set v _) w = _
        have hvw : v ≠ w := by intro hc; rw [← hc] at hw; exact hw h0
        rw [hpush3, hpop3, if_neg hvw]
        exact hold w hw
      · show s.pushNo ≤ s2.pushNo
        omega
      · show s2.pushNo + s.popNo = s2.popNo + 1 + s.pushNo
        omega
      · intro w hw0
        show pushOf (s2.arr.set v _) w ≠ 0 →
          popOf (s2.arr.set v _) w ≠ 0 ∧ s.pushNo ≤ pushOf (s2.arr.set v _) w ∧
            s.popNo ≤ popOf (s2.arr.set v _) w
        rw [hpush3, hpop3]
        intro hw2
        by_cases hvw : v = w
        · rw [if_pos hvw, ← hvw, hpv2]
          refine ⟨?_, le_refl _, ?_⟩ <;> omega
        · rw [if_neg hvw]
          obtain ⟨a, b, c⟩ := hnew w (Ne.symm hvw) hw0 hw2
          exact ⟨a, by omega, c⟩
      · intro w hw0
        show pushOf (s2.arr.set v _) w ≠ 0 → ∃ r, r = v ∧ Reach g r w
        rw [hpush3]
        intro hw2
        refine ⟨v, rfl, ?_⟩
        by_cases hvw : v = w
        · rw [hvw]
          exact Relation.ReflTransGen.refl
        · have h1 : pushOf (s.arr.set v { s.arr[v] with push := s.pushNo }) w = 0 := by
            rw [hpush1, if_neg hvw]; exact hw0
          obtain ⟨r, hr, hp⟩ := hext.reach w h1 hw2
          exact Relation.ReflTransGen.head (by rw [hadj]; exact hr) hp
    · show pushOf (s2.arr.set v _) v = s.pushNo
      rw [hpush3, hpv2]
    · show popOf (s2.arr.set v _) v + 1 = s2.popNo + 1
      rw [hpop3, if_pos rfl]

theorem pushOf_replicate (N v : Nat) (x : DFSVertex) (hx : x.push = 0) :
    pushOf (List.replicate N x) v = 0 := by
  unfold pushOf
  split
  · rename_i y hy
    rw [List.getElem?_replicate] at hy
    split at hy
    · cases hy; exact hx
    · cases hy
  · rfl

theorem popOf_replicate (N v : Nat) (x : DFSVertex) (hx : x.pop = 0) :
    popOf (List.replicate N x) v = 0 := by
  unfold popOf
  split
  · rename_i y hy
    rw [List.getElem?_replicate] at hy
    split at hy
    · cases hy; exact hx
    · cases hy
  · rfl

/-- The state set up by `dfsWrapper` satisfies the invariants. -/
theorem inv_initState (g : Graph) (N : Nat) : Inv g N (initState N) := by
  have hp : ∀ v, pushOf (initState N).arr v = 0 := fun v => pushOf_replicate N v _ rfl
  have hq : ∀ v, popOf (initState N).arr v = 0 := fun v => popOf_replicate N v _ rfl
  constructor
  · simp [initState]
  · exact le_refl _
  · exact le_refl _
  · intro v; rw [hp]; exact Nat.one_pos
  · intro v; rw [hq]; exact Nat.one_pos
  · intro v hv; exact absurd (hq v) hv
  · intro u v hu; exact absurd (hp u) hu
  · intro u v hu; exact absurd (hq u) hu
  · intro t h1 h2
    have : (initState N).pushNo = 1 := rfl
    omega
  · intro t h1 h2
    have : (initState N).popNo = 1 := rfl
    omega
  · show 1 + undisc (List.replicate N _) = N + 1
    simp [undisc, List.countP_replicate]
    omega
  · intro u w _ hu; exact absurd (hq u) hu
  · intro u hu; exact absurd (hq u) hu

/-- The second loop of `dfsWrapper` over in-range indices, with a depth budget of at
least the vertex count. -/
theorem outerLoop_spec (g : Graph) (N fuel : Nat) (hg : GraphWF g N) (hfuel : N ≤ fuel) :
    ∀ (l : List Nat) (s : DState), (∀ i ∈ l, i < N) → Inv g N s →
      ∃ s2, outerLoop g fuel l s = .ok s2 ∧ Inv g N s2 ∧ Ext g (fun r => r ∈ l) s s2 ∧
        ∀ i ∈ l, pushOf s2.arr i ≠ 0 := by
  intro l
  induction l with
  | nil =>
    intro s _ hinv
    exact ⟨s, rfl, hinv, Ext.refl g _ s, fun i hi => by simp at hi⟩
  | cons i rest ih =>
    intro s hrange hinv
    have hiN : i < N := hrange i (List.mem_cons_self _ _)
    have hrest : ∀ j ∈ rest, j < N := fun j hj => hrange j (List.mem_cons_of_mem _ hj)
    have hil : i < s.arr.length := by rw [hinv.len]; exact hiN
    have hget : s.arr[i]? = some s.arr[i] := List.getElem?_eq_getElem hil
    have hpi : pushOf s.arr i = (s.arr[i]).push := pushOf_eq_getElem s.arr i hil
    have hpos := hinv.pop_pos
    have hle := hinv.pop_le_push
    by_cases hz : (s.arr[i]).push = 0
    · obtain ⟨s1, h1, hinv1, hext1, hp1, _⟩ :=
        dfs_spec g N hg fuel s i hinv hiN (hpi.trans hz) (by omega)
      obtain ⟨s2, h2, hinv2, hext2, hall2⟩ := ih s1 hrest hinv1
      refine ⟨s2, ?_, hinv2, ?_, ?_⟩
      · simp only [outerLoop, hget, hz, if_true, h1, h2]
      · exact Ext.trans g _ _ _ s s1 s2 hext1 hext2
          (fun r hr => by rw [hr]; exact List.mem_cons_self _ _)
          (fun r hr => List.mem_cons_of_mem _ hr)
      · intro y hy
        rcases List.mem_cons.mp hy with hy | hy
        · subst hy
          have hne : pushOf s1.arr y ≠ 0 := by rw [hp1]; omega
          rw [(hext2.frame y hne).1]
          exact hne
        · exact hall2 y hy
    · obtain ⟨s2, h2, hinv2, hext2, hall2⟩ := ih s hrest hinv
      refine ⟨s2, ?_, hinv2, ?_, ?_⟩
      · simp only [outerLoop, hget, hz, if_false, h2]
      · exact Ext.trans g _ _ _ s s s2 (Ext.refl g (fun _ => False) s) hext2
          (fun r hr => hr.elim) (fun r hr => List.mem_cons_of_mem _ hr)
      · intro y hy
        rcases List.mem_cons.mp hy with hy | hy
        · subst hy
          have hne : pushOf s.arr y ≠ 0 := by rw [hpi]; exact hz
          rw [(hext2.frame y hne).1]
          exact hne
        · exact hall2 y hy

theorem outerLoop_append (g : Graph) (fuel : Nat) (l1 l2 : List Nat) :
    ∀ s, outerLoop g fuel (l1 ++ l2) s =
      match outerLoop g fuel l1 s with
      | .error e => .error e
      | .ok s2 => outerLoop g fuel l2 s2 := by
  induction l1 with
  | nil => intro s; rfl
  | cons i rest ih =>
    intro s
    simp only [List.cons_append, outerLoop]
    cases s.arr[i]? with
    | none => rfl
    | some x =>
      simp only []
      by_cases hz : x.push = 0
      · simp only [hz, if_true]
        cases dfs g fuel s (i : Int) with
        | error e => rfl
        | ok s1 => exact ih s1
      · simp only [hz, if_false]
        exact ih s

theorem dfsLoop_mono (visit visit2 : DState → Int → Except Err DState)
    (hv : ∀ s d, visit s d ≠ .error .depth → visit2 s d = visit s d) :
    ∀ (l : List Int) (s : DState), dfsLoop visit l s ≠ .error .depth →
      dfsLoop visit2 l s = dfsLoop visit l s := by
  intro l
  induction l with
  | nil => intro s _; rfl
  | cons d rest ih =>
    intro s hne
    simp only [dfsLoop] at hne ⊢
    cases hget : getAt s.arr d with
    | none => rfl
    | some x =>
      simp only [hget] at hne ⊢
      by_cases hz : x.push = 0
      · simp only [hz, if_true] at hne ⊢
        have hvd : visit s d ≠ .error .depth := by
          intro hc
          rw [hc] at hne
          exact hne rfl
        rw [hv s d hvd]
        cases hvis : visit s d with
        | error e => rfl
        | ok s1 =>
          simp only [hvis] at hne ⊢
          exact ih s1 hne
      · simp only [hz, if_false] at hne ⊢
        exact ih s hne

theorem dfs_mono (g : Graph) : ∀ (f : Nat) (s : DState) (node : Int),
    dfs g f s node ≠ .error .depth → dfs g (f + 1) s node = dfs g f s node := by
  intro f
  induction f with
  | zero => intro s node hne; exact absurd rfl hne
  | succ f ih =>
    intro s node hne
    rw [dfs] at hne
    rw [dfs, dfs]
    cases hh : getAt g.listHead node with
    | none => rfl
    | some h =>
      simp only [hh] at hne ⊢
      cases hx : getAt s.arr node with
      | none => rfl
      | some x =>
        simp only [hx] at hne ⊢
        cases ha : setAt s.arr node { x with push := s.pushNo } with
        | none => rfl
        | some a1 =>
          simp only [ha] at hne ⊢
          have hl : dfsLoop (dfs g f) h.ptr { s with pushNo := s.pushNo + 1, arr := a1 }
              ≠ .error .depth := by
            intro hc
            rw [hc] at hne
            exact hne rfl
          rw [dfsLoop_mono (dfs g f) (dfs g (f + 1)) ih _ _ hl]

theorem outerLoop_mono (g : Graph) (f : Nat) :
    ∀ (l : List Nat) (s : DState), outerLoop g f l s ≠ .error .depth →
      outerLoop g (f + 1) l s = outerLoop g f l s := by
  intro l
  induction l with
  | nil => intro s _; rfl
  | cons i rest ih =>
    intro s hne
    simp only [outerLoop] at hne ⊢
    cases hget : s.arr[i]? with
    | none => rfl
    | some x =>
      simp only [hget] at hne ⊢
      by_cases hz : x.push = 0
      · simp only [hz, if_true] at hne ⊢
        have hvd : dfs g f s (i : Int) ≠ .error .depth := by
          intro hc
          rw [hc] at hne
          exact hne rfl
        rw [dfs_mono g f s _ hvd]
        cases hvis : dfs g f s (i : Int) with
        | error e => rfl
        | ok s1 =>
          simp only [hvis] at hne ⊢
          exact ih s1 hne
      · simp only [hz, if_false] at hne ⊢
        exact ih s hne

theorem outerLoop_mono_le (g : Graph) (l : List Nat) (s : DState) (f : Nat)
    (hne : outerLoop g f l s ≠ .error .depth) :
    ∀ k, outerLoop g (f + k) l s = outerLoop g f l s := by
  intro k
  induction k with
  | zero => rfl
  | succ k ih =>
    rw [← Nat.add_assoc, outerLoop_mono g (f + k) l s (by rw [ih]; exact hne), ih]

theorem graphWF_of_valid (N : Nat) (edges : List Edge) (hval : ValidEdges N edges) (g : Graph)
    (hN : g.N = N) (hwf : HeadsWF N g.listHead) (hadj : ∀ v, g.adj v = adjSpec edges v) :
    GraphWF g N := by
  refine ⟨hN, hwf.1, ?_⟩
  intro v d hd
  rw [hadj, mem_adjSpec] at hd
  have := hval _ hd
  exact ⟨this.2.2.1, this.2.2.2⟩

/-- Summary of one run on valid edges: the graph is built, the traversal returns, the
final state satisfies the invariants and extends the initial state, and every vertex
is discovered. -/
theorem traversal_spec (N : Nat) (edges : List Edge) (hval : ValidEdges N edges) :
    ∃ g s, mkGraph N edges = .ok g ∧ GraphWF g N ∧ (∀ v, g.adj v = adjSpec edges v) ∧
      dfsWrapper g = .ok s ∧ Inv g N s ∧ Ext g (fun r => r < N) (initState N) s ∧
      (∀ v, v < N → pushOf s.arr v ≠ 0) ∧ run N edges = .ok s.arr := by
  obtain ⟨g, hmk, hN, hwf, hadj⟩ := mkGraph_spec N edges hval
  have hg := graphWF_of_valid N edges hval g hN hwf hadj
  obtain ⟨s, hrun, hinv, hext, hall⟩ := outerLoop_spec g N N hg (le_refl _) (List.range N)
    (initState N) (fun i hi => List.mem_range.mp hi) (inv_initState g N)
  have hw : dfsWrapper g = .ok s := by
    unfold dfsWrapper dfsWrapperFuel
    rw [hN]
    exact hrun
  refine ⟨g, s, hmk, hg, hadj, hw, hinv, ?_, ?_, ?_⟩
  · exact Ext.trans g _ _ _ _ _ _ hext (Ext.refl g (fun _ => False) s)
      (fun r hr => List.mem_range.mp hr) (fun r hr => hr.elim)
  · exact fun v hv => hall v (List.mem_range.mpr hv)
  · simp only [run, hmk, hw]

/-- After a full run both counters stand at `N + 1` and every vertex is finished. -/
theorem final_facts (g : Graph) (N : Nat) (s : DState) (hinv : Inv g N s)
    (hext : Ext g (fun r => r < N) (initState N) s)
    (hall : ∀ v, v < N → pushOf s.arr v ≠ 0) :
    s.pushNo = N + 1 ∧ s.popNo = N + 1 ∧ ∀ v, v < N → popOf s.arr v ≠ 0 := by
  have hc := hinv.count
  have hu : undisc s.arr = 0 := undisc_eq_zero s.arr (fun v hv => hall v (by rw [← hinv.len]; exact hv))
  have hk : s.pushNo + 1 = s.popNo + 1 := hext.counters
  refine ⟨by omega, by omega, ?_⟩
  intro v hv
  exact (hext.fresh v (pushOf_replicate N v _ rfl) (hall v hv)).1

theorem lt_of_pushOf_ne_zero (arr : List DFSVertex) (v : Nat) (h : pushOf arr v ≠ 0) :
    v < arr.length := by
  by_contra hc
  exact h (pushOf_of_le arr v (not_lt.mp hc))

theorem lt_of_popOf_ne_zero (arr : List DFSVertex) (v : Nat) (h : popOf arr v ≠ 0) :
    v < arr.length := by
  by_contra hc
  exact h (popOf_of_le arr v (not_lt.mp hc))

theorem twoCounter_of_final (g : Graph) (N : Nat) (s : DState) (hinv : Inv g N s)
    (hext : Ext g (fun r => r < N) (initState N) s)
    (hall : ∀ v, v < N → pushOf s.arr v ≠ 0) : TwoCounterNumbering N s.arr := by
  obtain ⟨hP, hQ, hfin⟩ := final_facts g N s hinv hext hall
  refine ⟨?_, ?_, ?_, ?_, ?_⟩
  · intro v hv
    have a := hall v hv
    have b := hfin v hv
    have c := hinv.push_lt v
    have d := hinv.pop_lt v
    omega
  · intro u hu v _ huv he
    exact huv (hinv.push_inj u v (hall u hu) he)
  · intro u hu v _ huv he
    exact huv (hinv.pop_inj u v (hfin u hu) he)
  · intro t h1 h2
    obtain ⟨v, hv⟩ := hinv.push_surj t h1 (by omega)
    refine ⟨v, ?_, hv⟩
    rw [← hinv.len]
    exact lt_of_pushOf_ne_zero s.arr v (by omega)
  · intro t h1 h2
    obtain ⟨v, hv⟩ := hinv.pop_surj t h1 (by omega)
    refine ⟨v, ?_, hv⟩
    rw [← hinv.len]
    exact lt_of_popOf_ne_zero s.arr v (by omega)

/-- For a numbering of `0 .. N-1` by `1 .. N` without repetition, the number of
vertices numbered below `v` is the number of `v` minus one. -/
theorem card_numbered_below (N : Nat) (f : Nat → Nat)
    (hinj : ∀ u, u < N → ∀ v, v < N → u ≠ v → f u ≠ f v)
    (hsurj : ∀ t, 1 ≤ t → t ≤ N → ∃ v, v < N ∧ f v = t)
    (hrange : ∀ v, v < N → 1 ≤ f v ∧ f v ≤ N) (v : Nat) (hv : v < N) :
    ((Finset.range N).filter fun w => f w < f v).card + 1 = f v := by
  have himg : ((Finset.range N).filter fun w => f w < f v).image f = Finset.Ico 1 (f v) := by
    ext t
    simp only [Finset.mem_image, Finset.mem_filter, Finset.mem_range, Finset.mem_Ico]
    constructor
    · rintro ⟨w, ⟨hw, hlt⟩, rfl⟩
      exact ⟨(hrange w hw).1, hlt⟩
    · rintro ⟨h1, h2⟩
      obtain ⟨w, hw, hfw⟩ := hsurj t h1 (by have := (hrange v hv).2; omega)
      exact ⟨w, ⟨hw, by rw [hfw]; exact h2⟩, hfw⟩
  have hcard := Finset.card_image_of_injOn
    (s := (Finset.range N).filter fun w => f w < f v) (f := f) (by
      intro a ha b hb hab
      simp only [Finset.coe_filter, Finset.mem_range, Set.mem_setOf_eq] at ha hb
      by_contra hne
      exact hinj a ha.1 b hb.1 hne hab)
  rw [himg, Nat.card_Ico] at hcard
  have := (hrange v hv).1
  omega

/-- For two numberings of the vertices by `1 .. N`, the difference of the two numbers of
`v` is the difference between the vertices enclosed by `v` and those enclosing `v`. -/
theorem push_pop_balance (N : Nat) (arr : List DFSVertex) (hlen : arr.length = N)
    (h : TwoCounterNumbering N arr) (v : Nat) (hv : v < N) :
    pushOf arr v + enclosed arr v = popOf arr v + enclosing arr v := by
  obtain ⟨hr, hpi, hqi, hps, hqs⟩ := h
  have hA := card_numbered_below N (pushOf arr) hpi hps
    (fun w hw => ⟨(hr w hw).1, (hr w hw).2.1⟩) v hv
  have hB := card_numbered_below N (popOf arr) hqi hqs
    (fun w hw => ⟨(hr w hw).2.2.1, (hr w hw).2.2.2⟩) v hv
  have hsA := Finset.filter_card_add_filter_neg_card_eq_card
    (s := (Finset.range N).filter fun w => pushOf arr w < pushOf arr v)
    (fun w => popOf arr w < popOf arr v)
  have hsB := Finset.filter_card_add_filter_neg_card_eq_card
    (s := (Finset.range N).filter fun w => popOf arr w < popOf arr v)
    (fun w => pushOf arr w < pushOf arr v)
  have e1 : ((Finset.range N).filter fun w => popOf arr w < popOf arr v).filter
      (fun w => pushOf arr w < pushOf arr v)
      = ((Finset.range N).filter fun w => pushOf arr w < pushOf arr v).filter
      (fun w => popOf arr w < popOf arr v) := by
    ext w
    simp only [Finset.mem_filter, Finset.mem_range]
    tauto
  have e2 : ((Finset.range N).filter fun w => pushOf arr w < pushOf arr v).filter
      (fun w => ¬ popOf arr w < popOf arr v)
      = (Finset.range N).filter
        fun w => pushOf arr w < pushOf arr v ∧ popOf arr v < popOf arr w := by
    ext w
    simp only [Finset.mem_filter, Finset.mem_range]
    constructor
    · rintro ⟨⟨hw, hlt⟩, hn⟩
      have hne : w ≠ v := by intro hc; rw [hc] at hlt; omega
      have := hqi w hw v hv hne
      exact ⟨hw, hlt, by omega⟩
    · rintro ⟨hw, hlt, hgt⟩
      exact ⟨⟨hw, hlt⟩, by omega⟩
  have e3 : ((Finset.range N).filter fun w => popOf arr w < popOf arr v).filter
      (fun w => ¬ pushOf arr w < pushOf arr v)
      = (Finset.range N).filter
        fun w => pushOf arr v < pushOf arr w ∧ popOf arr w < popOf arr v := by
    ext w
    simp only [Finset.mem_filter, Finset.mem_range]
    constructor
    · rintro ⟨⟨hw, hlt⟩, hn⟩
      have hne : w ≠ v := by intro hc; rw [hc] at hlt; omega
      have := hpi w hw v hv hne
      exact ⟨hw, by omega, hlt⟩
    · rintro ⟨hw, hgt, hlt⟩
      exact ⟨⟨hw, hlt⟩, by omega⟩
  rw [e1, e3] at hsB
  rw [e2] at hsA
  unfold enclosed enclosing
  rw [hlen]
  omega

/-- One iteration of the second loop of `dfsWrapper`. -/
theorem outer_step (g : Graph) (N : Nat) (hg : GraphWF g N) (s : DState) (i : Nat)
    (hi : i < N) (hinv : Inv g N s) :
    ∃ s2, outerLoop g N [i] s = .ok s2 ∧ Inv g N s2 ∧ Ext g (fun r => r = i) s s2 ∧
      pushOf s2.arr i ≠ 0 ∧
      (pushOf s.arr i = 0 → pushOf s2.arr i = s.pushNo ∧ popOf s2.arr i + 1 = s2.popNo) := by
  have hil : i < s.arr.length := by rw [hinv.len]; exact hi
  have hget : s.arr[i]? = some s.arr[i] := List.getElem?_eq_getElem hil
  have hpi : pushOf s.arr i = (s.arr[i]).push := pushOf_eq_getElem s.arr i hil
  have hpos := hinv.pop_pos
  have hle := hinv.pop_le_push
  by_cases hz : (s.arr[i]).push = 0
  · obtain ⟨s1, h1, hinv1, hext1, hp1, hq1⟩ :=
      dfs_spec g N hg N s i hinv hi (hpi.trans hz) (by omega)
    refine ⟨s1, ?_, hinv1, hext1, by rw [hp1]; omega, fun _ => ⟨hp1, hq1⟩⟩
    simp only [outerLoop, hget, hz, if_true, h1]
  · refine ⟨s, ?_, hinv, Ext.refl g _ s, by rw [hpi]; exact hz, fun h => ?_⟩
    · simp only [outerLoop, hget, hz, if_false]
    · rw [hpi] at h
      exact absurd h hz

theorem outerUpTo_succ (g : Graph) (i : Nat) (s : DState) (h : outerUpTo g i = .ok s) :
    outerUpTo g (i + 1) = outerLoop g g.N [i] s := by
  unfold outerUpTo at h ⊢
  rw [List.range_succ, outerLoop_append, h]

/-- The state reached at index `i` of the outer loop and its relation to the state
reached at a later index `j`. -/
theorem upTo_states (g : Graph) (N : Nat) (hg : GraphWF g N) (i : Nat) :
    ∀ j, i ≤ j → j ≤ N → ∃ si sj, outerUpTo g i = .ok si ∧ outerUpTo g j = .ok sj ∧
      Inv g N si ∧ Inv g N sj ∧ Ext g (fun r => i ≤ r ∧ r < j) si sj ∧
      Ext g (fun r => r < i) (initState N) si ∧
      (∀ k, k < j → pushOf sj.arr k ≠ 0) := by
  intro j hij
  induction j, hij using Nat.le_induction with
  | base =>
    intro hiN
    obtain ⟨s, hrun, hinv, hext, hall⟩ := outerLoop_spec g N N hg (le_refl _) (List.range i)
      (initState N) (fun k hk => lt_of_lt_of_le (List.mem_range.mp hk) hiN) (inv_initState g N)
    have hupto : outerUpTo g i = .ok s := by
      unfold outerUpTo
      rw [hg.1]
      exact hrun
    refine ⟨s, s, hupto, hupto, hinv, hinv, Ext.refl g _ s, ?_, ?_⟩
    · exact Ext.trans g _ _ _ _ _ _ hext (Ext.refl g (fun _ => False) s)
        (fun r hr => List.mem_range.mp hr) (fun r hr => hr.elim)
    · exact fun k hk => hall k (List.mem_range.mpr hk)
  | succ j hij ih =>
    intro hjN
    obtain ⟨si, sj, hi, hj, hinvi, hinvj, hext, hext0, hall⟩ := ih (by omega)
    obtain ⟨s2, hstep, hinv2, hext2, hd2, _⟩ := outer_step g N hg sj j (by omega) hinvj
    have hupto : outerUpTo g (j + 1) = .ok s2 := by
      rw [outerUpTo_succ g j sj hj, hg.1]
      exact hstep
    refine ⟨si, s2, hi, hupto, hinvi, hinv2, ?_, hext0, ?_⟩
    · exact Ext.trans g _ _ _ _ _ _ hext hext2
        (fun r hr => ⟨hr.1, by omega⟩) (fun r hr => ⟨by omega, by omega⟩)
    · intro k hk
      by_cases hkj : k = j
      · rw [hkj]; exact hd2
      · have hne := hall k (by omega)
        rw [(hext2.frame k hne).1]
        exact hne

/-- The final state of `dfsWrapper` is the state of the outer loop at index `N`. -/
theorem dfsWrapper_eq_outerUpTo (g : Graph) : dfsWrapper g = outerUpTo g g.N := rfl

theorem counters_equal_of_ext_init (g : Graph) (N : Nat) (S : Nat → Prop) (s : DState)
    (h : Ext g S (initState N) s) : s.pushNo = s.popNo := by
  have hk : s.pushNo + 1 = s.popNo + 1 := h.counters
  omega

/-- The states before and after iteration `r` of the outer loop, and their relation to
the final state `F`. -/
theorem component_states (g : Graph) (N : Nat) (hg : GraphWF g N) (r : Nat) (hr : r < N)
    (F : DState) (hF : outerUpTo g N = .ok F) :
    ∃ s s2, outerUpTo g r = .ok s ∧ outerUpTo g (r + 1) = .ok s2 ∧
      Inv g N s ∧ Inv g N s2 ∧ Ext g (fun x => x = r) s s2 ∧
      Ext g (fun x => r + 1 ≤ x ∧ x < N) s2 F ∧ Ext g (fun x => x < r) (initState N) s ∧
      (∀ k, k < r → pushOf s.arr k ≠ 0) ∧ pushOf s2.arr r ≠ 0 ∧
      (pushOf s.arr r = 0 → pushOf s2.arr r = s.pushNo ∧ popOf s2.arr r + 1 = s2.popNo) := by
  obtain ⟨s, t, hs, ht, hinv, _, _, hext0, hall⟩ :=
    upTo_states g N hg r r (le_refl _) (le_of_lt hr)
  have e0 : t = s := by
    rw [hs] at ht
    cases ht
    rfl
  rw [e0] at hall
  obtain ⟨s2, hstep, hinv2, hext2, hd2, hroot⟩ := outer_step g N hg s r hr hinv
  have hs2 : outerUpTo g (r + 1) = .ok s2 := by
    rw [outerUpTo_succ g r s hs, hg.1]
    exact hstep
  obtain ⟨t2, tF, ht2, htF, _, _, hextF, _, _⟩ := upTo_states g N hg (r + 1) N hr (le_refl _)
  have e1 : t2 = s2 := by
    rw [hs2] at ht2
    cases ht2
    rfl
  have e2 : tF = F := by
    rw [hF] at htF
    cases htF
    rfl
  rw [e1, e2] at hextF
  exact ⟨s, s2, hs, hs2, hinv, hinv2, hext2, hextF, hext0, hall, hd2, hroot⟩

theorem entryCounter_eq (g : Graph) (i : Nat) (s : DState) (h : outerUpTo g i = .ok s) :
    entryCounter g i = s.pushNo := by
  simp [entryCounter, h]

/-- On valid edges the graph is built and the outer loop reaches index `N`. -/
theorem final_state_exists (N : Nat) (edges : List Edge) (hval : ValidEdges N edges) :
    ∃ g F, mkGraph N edges = .ok g ∧ GraphWF g N ∧ (∀ v, g.adj v = adjSpec edges v) ∧
      outerUpTo g N = .ok F ∧ Inv g N F ∧ run N edges = .ok F.arr := by
  obtain ⟨g, s, hmk, hg, hadj, hw, hinv, _, _, hrun⟩ := traversal_spec N edges hval
  refine ⟨g, s, hmk, hg, hadj, ?_, hinv, hrun⟩
  rw [← hg.1, ← dfsWrapper_eq_outerUpTo]
  exact hw

theorem reach_iff_reachable (g : Graph) (edges : List Edge)
    (hadj : ∀ v, g.adj v = adjSpec edges v) (u w : Nat) :
    Reach g u w ↔ Reachable edges u w := by
  unfold Reach Reachable
  constructor
  · intro h
    refine Relation.ReflTransGen.mono ?_ h
    intro a b hab
    rw [hadj, mem_adjSpec] at hab
    exact hab
  · intro h
    refine Relation.ReflTransGen.mono ?_ h
    intro a b hab
    rw [hadj, mem_adjSpec]
    exact hab

theorem pushOf_zero_of_ext_init_zero (g : Graph) (N : Nat) (s : DState)
    (h : Ext g (fun x => x < 0) (initState N) s) (w : Nat) : pushOf s.arr w = 0 := by
  by_contra hc
  obtain ⟨r, hr, _⟩ := h.reach w (pushOf_replicate N w _ rfl) hc
  exact absurd hr (Nat.not_lt_zero r)

/-- C1: for every vertex count and every edge list with endpoints in `[0, N)`, the
constructor builds a graph with `N` heads in which the adjacency sequence of every
vertex `v < N`, read in reverse, is the list of destinations of the edges with source
`v` in input order (nothing dropped, nothing duplicated). -/
theorem adjacency_is_reverse_insertion_order (N : Nat) (edges : List Edge)
    (hval : ValidEdges N edges) :
    ∃ g, mkGraph N edges = .ok g ∧ g.N = N ∧ g.listHead.length = N ∧
      ∀ v, v < N → (g.adj v).reverse
        = (edges.filter fun e => e.source = (v : Int)).map fun e => e.destination := by
  obtain ⟨g, hmk, hN, hwf, hadj⟩ := mkGraph_spec N edges hval
  refine ⟨g, hmk, hN, hwf.1, ?_⟩
  intro v _
  rw [hadj v, adjSpec, List.reverse_reverse]

/-- Witness for C1 on the sample of `main`: the adjacency sequence of vertex 2 is
`[5, 3]`. -/
theorem adjacency_is_reverse_insertion_order_witness :
    ValidEdges 6 sampleEdges ∧ ∃ g, mkGraph 6 sampleEdges = .ok g ∧ g.adj 2 = [5, 3] := by
  refine ⟨by decide, ?_⟩
  obtain ⟨g, hmk, _, _, h⟩ := adjacency_is_reverse_insertion_order 6 sampleEdges (by decide)
  refine ⟨g, hmk, ?_⟩
  have h2 := h 2 (by decide)
  have h3 : (g.adj 2).reverse = [3, 5] := by rw [h2]; rfl
  have h4 := congrArg List.reverse h3
  rw [List.reverse_reverse] at h4
  exact h4

/-- C2, as stated, fails: on the one-vertex graph without edges the push number and
the pop number of vertex 0 are both 1, so the two numbers are not distinct and do not
fill `1 .. 2`. -/
theorem shared_counter_numbering_fails :
    ∃ arr, run 1 [] = .ok arr ∧ ¬ SharedCounterNumbering 1 arr :=
  ⟨[⟨1, 1⟩], rfl, fun h => h.2.2.1 0 (by decide) 0 (by decide) rfl⟩

/-- C2, amended: the traversal returns an array of `N` entries in which every vertex
has one push and one pop number, the push numbers are pairwise distinct and are
exactly `1 .. N`, and the pop numbers are pairwise distinct and are exactly `1 .. N`
(two counters, each starting at 1). -/
theorem push_and_pop_numbers_each_fill_one_to_N (N : Nat) (edges : List Edge)
    (hval : ValidEdges N edges) :
    ∃ arr, run N edges = .ok arr ∧ arr.length = N ∧ TwoCounterNumbering N arr := by
  obtain ⟨g, s, _, _, _, _, hinv, hext, hall, hrun⟩ := traversal_spec N edges hval
  exact ⟨s.arr, hrun, hinv.len, twoCounter_of_final g N s hinv hext hall⟩

/-- Witness for the amended C2 on the sample of `main`. -/
theorem push_and_pop_numbers_each_fill_one_to_N_witness :
    ValidEdges 6 sampleEdges ∧
      ∃ arr, run 6 sampleEdges = .ok arr ∧ arr.length = 6 ∧ TwoCounterNumbering 6 arr :=
  ⟨by decide, push_and_pop_numbers_each_fill_one_to_N 6 sampleEdges (by decide)⟩

/-- C3, as stated, fails: in the sample of `main` vertex 1 has push number 4 and pop
number 2, so its discovery number is not less than its finish number. -/
theorem push_lt_pop_fails :
    ∃ arr, run 6 sampleEdges = .ok arr ∧ ¬ (pushOf arr 1 < popOf arr 1) :=
  ⟨[⟨6, 1⟩, ⟨2, 4⟩, ⟨5, 2⟩, ⟨3, 6⟩, ⟨1, 5⟩, ⟨4, 3⟩], rfl, by decide⟩

/-- C3, amended: for every vertex `v` the push number exceeds the pop number by at most
the number of vertices whose visit encloses that of `v`; exactly, push number plus the
number of enclosed vertices equals pop number plus the number of enclosing vertices.
A vertex that no visit encloses has push number at most its pop number. -/
theorem push_le_pop_plus_enclosing (N : Nat) (edges : List Edge) (hval : ValidEdges N edges) :
    ∃ arr, run N edges = .ok arr ∧ ∀ v, v < N →
      pushOf arr v + enclosed arr v = popOf arr v + enclosing arr v ∧
      pushOf arr v ≤ popOf arr v + enclosing arr v ∧
      (enclosing arr v = 0 → pushOf arr v ≤ popOf arr v) := by
  obtain ⟨g, s, _, _, _, _, hinv, hext, hall, hrun⟩ := traversal_spec N edges hval
  refine ⟨s.arr, hrun, ?_⟩
  intro v hv
  have h := push_pop_balance N s.arr hinv.len (twoCounter_of_final g N s hinv hext hall) v hv
  refine ⟨h, by omega, fun h0 => by omega⟩

/-- Witness for the amended C3 on the sample of `main`. -/
theorem push_le_pop_plus_enclosing_witness :
    ValidEdges 6 sampleEdges ∧ ∃ arr, run 6 sampleEdges = .ok arr ∧ ∀ v, v < 6 →
      pushOf arr v + enclosed arr v = popOf arr v + enclosing arr v ∧
      pushOf arr v ≤ popOf arr v + enclosing arr v ∧
      (enclosing arr v = 0 → pushOf arr v ≤ popOf arr v) :=
  ⟨by decide, push_le_pop_plus_enclosing 6 sampleEdges (by decide)⟩

/-- C5: after the traversal every vertex in `[0, N)` has a non-zero push number and a
non-zero pop number, whether or not it can be reached from vertex 0. -/
theorem every_vertex_visited (N : Nat) (edges : List Edge) (hval : ValidEdges N edges) :
    ∃ arr, run N edges = .ok arr ∧ arr.length = N ∧
      ∀ v, v < N → pushOf arr v ≠ 0 ∧ popOf arr v ≠ 0 := by
  obtain ⟨g, s, _, _, _, _, hinv, hext, hall, hrun⟩ := traversal_spec N edges hval
  obtain ⟨_, _, hfin⟩ := final_facts g N s hinv hext hall
  exact ⟨s.arr, hrun, hinv.len, fun v hv => ⟨hall v hv, hfin v hv⟩⟩

/-- Witness for C5: three vertices and the single edge `(1, 0)`; vertices 1 and 2
cannot be reached from vertex 0. -/
theorem every_vertex_visited_witness :
    ValidEdges 3 [⟨1, 0⟩] ∧ ∃ arr, run 3 [⟨1, 0⟩] = .ok arr ∧ arr.length = 3 ∧
      ∀ v, v < 3 → pushOf arr v ≠ 0 ∧ popOf arr v ≠ 0 :=
  ⟨by decide, every_vertex_visited 3 [⟨1, 0⟩] (by decide)⟩

/-- C6: on every graph built from in-range edges (self-loops, parallel edges and cycles
included) the traversal returns: a recursion depth budget of `N` is enough, any larger
budget gives the same final state, and `dfs` is entered exactly `N` times in total
(the push counter, advanced once per entry, ends at `N + 1`), once for each vertex:
every value `1 .. N` written at an entry is still the push number of some vertex at the
end, and the `N` vertices carry pairwise distinct non-zero push numbers. -/
theorem traversal_terminates_within_depth_N (N : Nat) (edges : List Edge)
    (hval : ValidEdges N edges) :
    ∃ g s, mkGraph N edges = .ok g ∧
      (∀ fuel, N ≤ fuel → dfsWrapperFuel g fuel = .ok s) ∧
      s.pushNo = N + 1 ∧ s.popNo = N + 1 ∧
      (∀ v, v < N → pushOf s.arr v ≠ 0) ∧
      (∀ u, u < N → ∀ v, v < N → u ≠ v → pushOf s.arr u ≠ pushOf s.arr v) ∧
      (∀ t, 1 ≤ t → t ≤ N → ∃ v, v < N ∧ pushOf s.arr v = t) := by
  obtain ⟨g, s, hmk, hg, _, hw, hinv, hext, hall, _⟩ := traversal_spec N edges hval
  obtain ⟨hP, hQ, _⟩ := final_facts g N s hinv hext hall
  refine ⟨g, s, hmk, ?_, hP, hQ, hall, ?_, (twoCounter_of_final g N s hinv hext hall).2.2.2.1⟩
  · intro fuel hf
    obtain ⟨k, rfl⟩ := Nat.exists_eq_add_of_le hf
    have hw2 : outerLoop g N (List.range g.N) (initState g.N) = .ok s := by
      have := hw
      unfold dfsWrapper dfsWrapperFuel at this
      rw [hg.1] at this ⊢
      exact this
    unfold dfsWrapperFuel
    rw [outerLoop_mono_le g _ _ N (by rw [hw2]; intro hc; cases hc) k, hw2]
  · intro u hu v _ huv he
    exact huv (hinv.push_inj u v (hall u hu) he)

/-- Witness for C6: two vertices with a self-loop, a pair of parallel edges and a
cycle. -/
theorem traversal_terminates_within_depth_N_witness :
    ValidEdges 2 [⟨0, 0⟩, ⟨0, 1⟩, ⟨0, 1⟩, ⟨1, 0⟩] ∧
    ∃ g s, mkGraph 2 [⟨0, 0⟩, ⟨0, 1⟩, ⟨0, 1⟩, ⟨1, 0⟩] = .ok g ∧
      (∀ fuel, 2 ≤ fuel → dfsWrapperFuel g fuel = .ok s) ∧
      s.pushNo = 2 + 1 ∧ s.popNo = 2 + 1 ∧
      (∀ v, v < 2 → pushOf s.arr v ≠ 0) ∧
      (∀ u, u < 2 → ∀ v, v < 2 → u ≠ v → pushOf s.arr u ≠ pushOf s.arr v) ∧
      (∀ t, 1 ≤ t → t ≤ 2 → ∃ v, v < 2 ∧ pushOf s.arr v = t) :=
  ⟨by decide, traversal_terminates_within_depth_N 2 [⟨0, 0⟩, ⟨0, 1⟩, ⟨0, 1⟩, ⟨1, 0⟩] (by decide)⟩

/-- C7: on a graph built from in-range edges every stored destination lies in `[0, N)`,
there are `N` heads and `N` dfs entries, the traversal returns normally, and no depth
budget whatsoever makes it reach the out-of-range branch of an index operation. -/
theorem traversal_never_out_of_range (N : Nat) (edges : List Edge) (hval : ValidEdges N edges) :
    ∃ g, mkGraph N edges = .ok g ∧ g.listHead.length = N ∧
      (∀ v d, d ∈ g.adj v → 0 ≤ d ∧ d < (N : Int)) ∧
      (∃ s, dfsWrapper g = .ok s ∧ s.arr.length = N) ∧
      ∀ fuel, dfsWrapperFuel g fuel ≠ .error .outOfRange := by
  obtain ⟨g, s, hmk, hg, _, hw, hinv, _, _, _⟩ := traversal_spec N edges hval
  refine ⟨g, hmk, hg.2.1, hg.2.2, ⟨s, hw, hinv.len⟩, ?_⟩
  have hw2 : outerLoop g N (List.range g.N) (initState g.N) = .ok s := by
    have := hw
    unfold dfsWrapper dfsWrapperFuel at this
    rw [hg.1] at this ⊢
    exact this
  intro fuel hc
  unfold dfsWrapperFuel at hc
  rcases Nat.le_total fuel N with hf | hf
  · obtain ⟨k, hk⟩ := Nat.exists_eq_add_of_le hf
    have := outerLoop_mono_le g (List.range g.N) (initState g.N) fuel
      (by rw [hc]; intro h; cases h) k
    rw [← hk, hw2, hc] at this
    cases this
  · obtain ⟨k, hk⟩ := Nat.exists_eq_add_of_le hf
    have := outerLoop_mono_le g (List.range g.N) (initState g.N) N
      (by rw [hw2]; intro h; cases h) k
    rw [← hk, hw2, hc] at this
    cases this

/-- Witness for C7 on the sample of `main`. -/
theorem traversal_never_out_of_range_witness :
    ValidEdges 6 sampleEdges ∧
    ∃ g, mkGraph 6 sampleEdges = .ok g ∧ g.listHead.length = 6 ∧
      (∀ v d, d ∈ g.adj v → 0 ≤ d ∧ d < ((6 : Nat) : Int)) ∧
      (∃ s, dfsWrapper g = .ok s ∧ s.arr.length = 6) ∧
      ∀ fuel, dfsWrapperFuel g fuel ≠ .error .outOfRange :=
  ⟨by decide, traversal_never_out_of_range 6 sampleEdges (by decide)⟩

/-- C8: every vertex `v` is discovered during the iteration of some outer-loop entry
`r ≤ v`; the push numbers and the pop numbers of the vertices discovered
during iteration `r` are exactly the integers from the value of the counter at the
start of iteration `r` up to (excluding) its value at the start of iteration `r + 1`,
a contiguous range; and the range of a smaller entry index lies entirely below the
range of a larger one, so different ranges do not overlap. -/
theorem component_ranges_contiguous_and_ordered (N : Nat) (edges : List Edge)
    (hval : ValidEdges N edges) :
    ∃ g arr, mkGraph N edges = .ok g ∧ run N edges = .ok arr ∧
      (∀ v, v < N → ∃ r, r ≤ v ∧ DiscoveredFrom g r v) ∧
      (∀ r v, r < N → DiscoveredFrom g r v →
        entryCounter g r ≤ pushOf arr v ∧ pushOf arr v < entryCounter g (r + 1) ∧
        entryCounter g r ≤ popOf arr v ∧ popOf arr v < entryCounter g (r + 1)) ∧
      (∀ r, r < N → ∀ t, entryCounter g r ≤ t → t < entryCounter g (r + 1) →
        (∃ v, DiscoveredFrom g r v ∧ pushOf arr v = t) ∧
        (∃ v, DiscoveredFrom g r v ∧ popOf arr v = t)) ∧
      (∀ r r2, r < r2 → r2 < N → entryCounter g (r + 1) ≤ entryCounter g r2) := by
  obtain ⟨g, F, hmk, hg, _, hF, hinvF, hrun⟩ := final_state_exists N edges hval
  refine ⟨g, F.arr, hmk, hrun, ?_, ?_, ?_, ?_⟩
  · -- every vertex belongs to an entry
    have key : ∀ i, i ≤ N → ∀ v, (∃ s, outerUpTo g i = .ok s ∧ pushOf s.arr v ≠ 0) →
        ∃ r, r < i ∧ DiscoveredFrom g r v := by
      intro i
      induction i with
      | zero =>
        rintro _ v ⟨s, hs, hv⟩
        have : s = initState g.N := by
          unfold outerUpTo at hs
          simp only [List.range_zero, outerLoop] at hs
          cases hs
          rfl
        rw [this] at hv
        exact absurd (pushOf_replicate g.N v _ rfl) hv
      | succ i ih =>
        rintro hi v ⟨s2, hs2, hv⟩
        obtain ⟨s, t2, hs, ht2, _⟩ := component_states g N hg i (by omega) F hF
        have e : t2 = s2 := by
          rw [hs2] at ht2
          cases ht2
          rfl
        by_cases h0 : pushOf s.arr v = 0
        · exact ⟨i, by omega, s, s2, hs, hs2, h0, hv⟩
        · obtain ⟨r, hr, hd⟩ := ih (by omega) v ⟨s, hs, h0⟩
          exact ⟨r, by omega, hd⟩
    intro v hv
    obtain ⟨s, s2, _, hs2, _, _, _, _, _, _, hd2, _⟩ := component_states g N hg v hv F hF
    obtain ⟨r, hr, hd⟩ := key (v + 1) (by omega) v ⟨s2, hs2, hd2⟩
    exact ⟨r, by omega, hd⟩
  · rintro r v hr ⟨t, t2, ht, ht2, h0, h2⟩
    obtain ⟨s, s2, hs, hs2, hinv, hinv2, hext, hextF, hext0, _⟩ :=
      component_states g N hg r hr F hF
    have e1 : t = s := by rw [hs] at ht; cases ht; rfl
    have e2 : t2 = s2 := by rw [hs2] at ht2; cases ht2; rfl
    rw [e1] at h0
    rw [e2] at h2
    obtain ⟨_, a, b⟩ := hext.fresh v h0 h2
    have c := hinv2.push_lt v
    have d := hinv2.pop_lt v
    have k1 := counters_equal_of_ext_init g N _ s hext0
    have k2 : s2.pushNo = s2.popNo := by
      have := hext.counters
      omega
    obtain ⟨f1, f2⟩ := hextF.frame v h2
    rw [entryCounter_eq g r s hs, entryCounter_eq g (r + 1) s2 hs2, f1, f2]
    omega
  · intro r hr t hlo hhi
    obtain ⟨s, s2, hs, hs2, hinv, hinv2, hext, hextF, hext0, _⟩ :=
      component_states g N hg r hr F hF
    rw [entryCounter_eq g r s hs] at hlo
    rw [entryCounter_eq g (r + 1) s2 hs2] at hhi
    have k1 := counters_equal_of_ext_init g N _ s hext0
    have k2 : s2.pushNo = s2.popNo := by
      have := hext.counters
      omega
    have hpos := hinv.pop_pos
    constructor
    · obtain ⟨v, hv⟩ := hinv2.push_surj t (by omega) hhi
      have h2 : pushOf s2.arr v ≠ 0 := by omega
      have h0 : pushOf s.arr v = 0 := by
        by_contra hc
        have := (hext.frame v hc).1
        have := hinv.push_lt v
        omega
      exact ⟨v, ⟨s, s2, hs, hs2, h0, h2⟩, by rw [(hextF.frame v h2).1]; exact hv⟩
    · obtain ⟨v, hv⟩ := hinv2.pop_surj t (by omega) (by omega)
      have h2 : pushOf s2.arr v ≠ 0 := hinv2.fin_disc v (by omega)
      have h0 : pushOf s.arr v = 0 := by
        by_contra hc
        have := (hext.frame v hc).2
        have := hinv.pop_lt v
        omega
      exact ⟨v, ⟨s, s2, hs, hs2, h0, h2⟩, by rw [(hextF.frame v h2).2]; exact hv⟩
  · intro r r2 hlt hr2
    obtain ⟨s2, t, hs2, ht, _, _, hext, _, _⟩ := upTo_states g N hg (r + 1) r2 hlt (le_of_lt hr2)
    rw [entryCounter_eq g (r + 1) s2 hs2, entryCounter_eq g r2 t ht]
    exact hext.push_mono

/-- C9: with at least one vertex, vertex 0 has a larger pop number than every other
vertex exactly when every other vertex can be reached from vertex 0 along directed
edges. -/
theorem vertex_zero_finishes_last_iff_all_reachable (N : Nat) (edges : List Edge)
    (hN : 1 ≤ N) (hval : ValidEdges N edges) :
    ∃ arr, run N edges = .ok arr ∧
      ((∀ v, v < N → v ≠ 0 → popOf arr v < popOf arr 0) ↔
        (∀ v, v < N → v ≠ 0 → Reachable edges 0 v)) := by
  obtain ⟨g, F, hmk, hg, hadj, hF, hinvF, hrun⟩ := final_state_exists N edges hval
  obtain ⟨s, s2, hs, hs2, hinv, hinv2, hext, hextF, hext0, _, hd2, hroot⟩ :=
    component_states g N hg 0 hN F hF
  have hz := pushOf_zero_of_ext_init_zero g N s hext0
  obtain ⟨_, hq0⟩ := hroot (hz 0)
  have hF0 := (hextF.frame 0 hd2).2
  refine ⟨F.arr, hrun, ?_, ?_⟩
  · intro hlast v hv hv0
    rw [← reach_iff_reachable g edges hadj]
    by_contra hnr
    have h2 : pushOf s2.arr v = 0 := by
      by_contra hc
      obtain ⟨r, hr, hp⟩ := hext.reach v (hz v) hc
      rw [hr] at hp
      exact hnr hp
    have hFv : pushOf F.arr v ≠ 0 := by
      obtain ⟨_, t2, _, ht2, _, _, _, _, hall2⟩ :=
        upTo_states g N hg N N (le_refl _) (le_refl _)
      have e2 : t2 = F := by rw [hF] at ht2; cases ht2; rfl
      rw [e2] at hall2
      exact hall2 v hv
    have := (hextF.fresh v h2 hFv).2.2
    have := hlast v hv hv0
    omega
  · intro hreach v hv hv0
    have hclosed : ∀ w, Reach g 0 w → pushOf s2.arr w ≠ 0 := by
      intro w hw
      induction hw with
      | refl => exact hd2
      | @tail a b _ hab ih =>
        have hfin := (hext.fresh a (hz a) ih).1
        exact (hinv2.edge a hfin b hab).1
    have hv2 := hclosed v ((reach_iff_reachable g edges hadj 0 v).mpr (hreach v hv hv0))
    have hfin := (hext.fresh v (hz v) hv2).1
    have hlt := hinv2.pop_lt v
    have hne : popOf s2.arr v ≠ popOf s2.arr 0 := by
      intro hc
      exact hv0 (hinv2.pop_inj v 0 hfin hc)
    rw [(hextF.frame v hv2).2, hF0]
    omega

/-- Witness for C9 on the sample of `main`: every vertex can be reached from vertex 0
and vertex 0 has the largest pop number. -/
theorem vertex_zero_finishes_last_iff_all_reachable_witness :
    (1 ≤ 6 ∧ ValidEdges 6 sampleEdges) ∧
    ∃ arr, run 6 sampleEdges = .ok arr ∧
      (∀ v, v < 6 → v ≠ 0 → popOf arr v < popOf arr 0) ∧
      (∀ v, v < 6 → v ≠ 0 → Reachable sampleEdges 0 v) := by
  refine ⟨⟨by decide, by decide⟩, ?_⟩
  obtain ⟨arr, hrun, hiff⟩ :=
    vertex_zero_finishes_last_iff_all_reachable 6 sampleEdges (by decide) (by decide)
  have hlast : ∀ v, v < 6 → v ≠ 0 → popOf arr v < popOf arr 0 := by
    have hconc : run 6 sampleEdges = .ok [⟨6, 1⟩, ⟨2, 4⟩, ⟨5, 2⟩, ⟨3, 6⟩, ⟨1, 5⟩, ⟨4, 3⟩] := rfl
    rw [hconc] at hrun
    cases hrun
    decide
  exact ⟨arr, hrun, hlast, hiff.mp hlast⟩

/-- C10: a vertex `v` that is neither source nor destination of any edge still gets a
non-zero push number and a non-zero pop number; it is undiscovered when the outer loop
reaches index `v`, it is discovered by the call made for that index, and every vertex
with a smaller index has a smaller push number. -/
theorem isolated_vertex_visited_at_its_index (N : Nat) (edges : List Edge)
    (hval : ValidEdges N edges) (v : Nat) (hv : v < N)
    (hiso : ∀ e ∈ edges, e.source ≠ (v : Int) ∧ e.destination ≠ (v : Int)) :
    ∃ g arr, mkGraph N edges = .ok g ∧ run N edges = .ok arr ∧
      pushOf arr v ≠ 0 ∧ popOf arr v ≠ 0 ∧
      (∃ s, outerUpTo g v = .ok s ∧ pushOf s.arr v = 0) ∧ DiscoveredFrom g v v ∧
      ∀ u, u < v → pushOf arr u < pushOf arr v := by
  obtain ⟨g, F, hmk, hg, hadj, hF, hinvF, hrun⟩ := final_state_exists N edges hval
  obtain ⟨s, s2, hs, hs2, hinv, hinv2, hext, hextF, hext0, hall, hd2, hroot⟩ :=
    component_states g N hg v hv F hF
  have h0 : pushOf s.arr v = 0 := by
    by_contra hc
    obtain ⟨r, hr, hp⟩ := hext0.reach v (pushOf_replicate N v _ rfl) hc
    rcases Relation.ReflTransGen.cases_tail hp with h | ⟨b, _, hb⟩
    · omega
    · rw [hadj, mem_adjSpec] at hb
      exact (hiso _ hb).2 rfl
  obtain ⟨hp2, hq2⟩ := hroot h0
  obtain ⟨f1, f2⟩ := hextF.frame v hd2
  have hfin := (hext.fresh v h0 hd2).1
  refine ⟨g, F.arr, hmk, hrun, ?_, ?_, ⟨s, hs, h0⟩, ⟨s, s2, hs, hs2, h0, hd2⟩, ?_⟩
  · rw [f1]; exact hd2
  · rw [f2]; exact hfin
  · intro u hu
    have hu0 := hall u hu
    obtain ⟨a, _⟩ := hext.frame u hu0
    obtain ⟨b, _⟩ := hextF.frame u (by rw [a]; exact hu0)
    have := hinv.push_lt u
    rw [f1, hp2, b, a]
    exact this

/-- Witness for C10: four vertices, edges `(0, 1)`, `(1, 3)`, `(3, 0)`; vertex 2 is
isolated. -/
theorem isolated_vertex_visited_at_its_index_witness :
    (ValidEdges 4 [⟨0, 1⟩, ⟨1, 3⟩, ⟨3, 0⟩] ∧ 2 < 4 ∧
      ∀ e ∈ ([⟨0, 1⟩, ⟨1, 3⟩, ⟨3, 0⟩] : List Edge),
        e.source ≠ ((2 : Nat) : Int) ∧ e.destination ≠ ((2 : Nat) : Int)) ∧
    ∃ g arr, mkGraph 4 [⟨0, 1⟩, ⟨1, 3⟩, ⟨3, 0⟩] = .ok g ∧
      run 4 [⟨0, 1⟩, ⟨1, 3⟩, ⟨3, 0⟩] = .ok arr ∧
      pushOf arr 2 ≠ 0 ∧ popOf arr 2 ≠ 0 ∧
      (∃ s, outerUpTo g 2 = .ok s ∧ pushOf s.arr 2 = 0) ∧ DiscoveredFrom g 2 2 ∧
      ∀ u, u < 2 → pushOf arr u < pushOf arr 2 :=
  ⟨⟨by decide, by decide, by decide⟩,
    isolated_vertex_visited_at_its_index 4 [⟨0, 1⟩, ⟨1, 3⟩, ⟨3, 0⟩] (by decide) 2 (by decide)
      (by decide)⟩

/-- Witness for C8: three vertices and the single edge `(2, 0)`; the entries are the
vertices 0, 1 and 2. -/
theorem component_ranges_contiguous_and_ordered_witness :
    ValidEdges 3 [⟨2, 0⟩] ∧
    ∃ g arr, mkGraph 3 [⟨2, 0⟩] = .ok g ∧ run 3 [⟨2, 0⟩] = .ok arr ∧
      (∀ v, v < 3 → ∃ r, r ≤ v ∧ DiscoveredFrom g r v) ∧
      (∀ r v, r < 3 → DiscoveredFrom g r v →
        entryCounter g r ≤ pushOf arr v ∧ pushOf arr v < entryCounter g (r + 1) ∧
        entryCounter g r ≤ popOf arr v ∧ popOf arr v < entryCounter g (r + 1)) ∧
      (∀ r, r < 3 → ∀ t, entryCounter g r ≤ t → t < entryCounter g (r + 1) →
        (∃ v, DiscoveredFrom g r v ∧ pushOf arr v = t) ∧
        (∃ v, DiscoveredFrom g r v ∧ popOf arr v = t)) ∧
      (∀ r r2, r < r2 → r2 < 3 → entryCounter g (r + 1) ≤ entryCounter g r2) :=
  ⟨by decide, component_ranges_contiguous_and_ordered 3 [⟨2, 0⟩] (by decide)⟩

/-- C12: on the sample of `main` the constructor builds the adjacency sequences
`0:[2,1]`, `1:[4,2]`, `2:[5,3]`, `3:[4,5]`, `4:[]`, `5:[1,3]`, and the traversal gives
the push numbers `1,4,2,6,5,3` and the pop numbers `6,2,5,3,1,4` to the vertices
`0..5`: vertex 0 is discovered first, the vertices are discovered in the order
`0,2,5,1,4,3` and finished in the order `4,1,3,5,2,0`. -/
theorem sample_golden_output :
    mkGraph 6 sampleEdges
      = .ok ⟨6, [⟨0, [2, 1]⟩, ⟨1, [4, 2]⟩, ⟨2, [5, 3]⟩, ⟨3, [4, 5]⟩, ⟨4, []⟩, ⟨5, [1, 3]⟩]⟩ ∧
    run 6 sampleEdges = .ok [⟨6, 1⟩, ⟨2, 4⟩, ⟨5, 2⟩, ⟨3, 6⟩, ⟨1, 5⟩, ⟨4, 3⟩] ∧
    (List.range 6).map (pushOf [⟨6, 1⟩, ⟨2, 4⟩, ⟨5, 2⟩, ⟨3, 6⟩, ⟨1, 5⟩, ⟨4, 3⟩])
      = [1, 4, 2, 6, 5, 3] ∧
    (List.range 6).map (popOf [⟨6, 1⟩, ⟨2, 4⟩, ⟨5, 2⟩, ⟨3, 6⟩, ⟨1, 5⟩, ⟨4, 3⟩])
      = [6, 2, 5, 3, 1, 4] ∧
    discoveryOrder [⟨6, 1⟩, ⟨2, 4⟩, ⟨5, 2⟩, ⟨3, 6⟩, ⟨1, 5⟩, ⟨4, 3⟩] = [0, 2, 5, 1, 4, 3] ∧
    finishOrder [⟨6, 1⟩, ⟨2, 4⟩, ⟨5, 2⟩, ⟨3, 6⟩, ⟨1, 5⟩, ⟨4, 3⟩] = [4, 1, 3, 5, 2, 0] :=
  ⟨rfl, rfl, rfl, rfl, rfl, rfl⟩

/-- C14: for the empty graph (no vertices, no edges) the constructor builds a graph
without heads, and the traversal returns the empty dfs array with both counters still
at 1; it does so even with a recursion depth budget of 0, so `dfs` is never
entered. -/
theorem empty_graph_empty_result :
    mkGraph 0 [] = .ok ⟨0, []⟩ ∧
    dfsWrapper ⟨0, []⟩ = .ok ⟨1, 1, []⟩ ∧
    dfsWrapperFuel ⟨0, []⟩ 0 = .ok ⟨1, 1, []⟩ ∧
    run 0 [] = .ok [] :=
  ⟨rfl, rfl, rfl, rfl⟩

/-- C17: for every edge `(u, v)` of a constructed graph, if `u` has the smaller push
number then `v` has the smaller pop number; no edge leads to a vertex that is
discovered only after its source is finished. -/
theorem edge_target_finishes_first (N : Nat) (edges : List Edge) (hval : ValidEdges N edges) :
    ∃ arr, run N edges = .ok arr ∧
      ∀ u v : Nat, (⟨(u : Int), (v : Int)⟩ : Edge) ∈ edges → u ≠ v →
        (pushOf arr u < pushOf arr v → popOf arr v < popOf arr u) ∧
        ¬ (pushOf arr u < pushOf arr v ∧ popOf arr u < popOf arr v) := by
  obtain ⟨g, s, _, _, hadj, _, hinv, hext, hall, hrun⟩ := traversal_spec N edges hval
  obtain ⟨_, _, hfin⟩ := final_facts g N s hinv hext hall
  refine ⟨s.arr, hrun, ?_⟩
  intro u v he _
  have hu : u < N := by
    have h1 : ((u : Int)) < (N : Int) := (hval _ he).2.1
    exact_mod_cast h1
  have hmem : (v : Int) ∈ g.adj u := by
    rw [hadj, mem_adjSpec]
    exact he
  have key := (hinv.edge u (hfin u hu) v hmem).2
  refine ⟨fun h => (key h).2, fun h => ?_⟩
  have := (key h.1).2
  omega

/-- Witness for C17 on the sample of `main`. -/
theorem edge_target_finishes_first_witness :
    ValidEdges 6 sampleEdges ∧
    ∃ arr, run 6 sampleEdges = .ok arr ∧
      ∀ u v : Nat, (⟨(u : Int), (v : Int)⟩ : Edge) ∈ sampleEdges → u ≠ v →
        (pushOf arr u < pushOf arr v → popOf arr v < popOf arr u) ∧
        ¬ (pushOf arr u < pushOf arr v ∧ popOf arr u < popOf arr v) :=
  ⟨by decide, edge_target_finishes_first 6 sampleEdges (by decide)⟩

/-- C15, as stated, fails: when the edge `(0, 2)` is processed for a source whose list
is already `[1]`, the node returned by the non-empty branch of `addAdjNode` becomes the
new first element, and the graph built from `(0, 1)`, `(0, 2)` has both destinations
in the adjacency sequence of vertex 0. -/
theorem returned_node_is_linked_example :
    addAdjNode [⟨0, [1]⟩, ⟨1, []⟩, ⟨2, []⟩] 0 2 = .ok ([⟨0, [1]⟩, ⟨1, []⟩, ⟨2, []⟩], [2, 1]) ∧
    addEdge [⟨0, [1]⟩, ⟨1, []⟩, ⟨2, []⟩] ⟨0, 2⟩ = .ok [⟨0, [2, 1]⟩, ⟨1, []⟩, ⟨2, []⟩] ∧
    mkGraph 3 [⟨0, 1⟩, ⟨0, 2⟩] = .ok ⟨3, [⟨0, [2, 1]⟩, ⟨1, []⟩, ⟨2, []⟩]⟩ :=
  ⟨rfl, rfl, rfl⟩

/-- C15, amended: when the constructor processes an edge whose source `u` already has
a non-empty list, `addAdjNode` leaves the head array untouched and returns the new
node in front of the old list, and the constructor stores that pointer in
`listHead[u].ptr`: after the step the list of `u` is the destination followed by the
old list, and the lists of the other vertices are unchanged. -/
theorem returned_node_is_linked (N : Nat) (lh : List AdjNode) (e : Edge) (u : Nat)
    (hwf : HeadsWF N lh) (hsrc : e.source = (u : Int)) (hu : u < N)
    (hne : ptrOf lh u ≠ []) :
    addAdjNode lh (u : Int) e.destination = .ok (lh, e.destination :: ptrOf lh u) ∧
    ∃ lh2, addEdge lh e = .ok lh2 ∧ HeadsWF N lh2 ∧
      ptrOf lh2 u = e.destination :: ptrOf lh u ∧
      ∀ v, v ≠ u → ptrOf lh2 v = ptrOf lh v := by
  constructor
  · have hlen : u < lh.length := by rw [hwf.1]; exact hu
    have hget : lh[u]? = some lh[u] := List.getElem?_eq_getElem hlen
    have hptr : ptrOf lh u = (lh[u]).ptr := by simp [ptrOf, hget]
    rw [hptr] at hne
    simp [addAdjNode, getAt_natCast, hget, hne, hptr]
  · obtain ⟨lh2, h1, hwf2, hp⟩ := addEdge_spec N lh e u hwf hsrc hu
    refine ⟨lh2, h1, hwf2, ?_, ?_⟩
    · rw [hp u, if_pos rfl]
    · intro v hv
      rw [hp v, if_neg (Ne.symm hv)]

/-- Witness for the amended C15: the second edge of the source 0. -/
theorem returned_node_is_linked_witness :
    (HeadsWF 3 [⟨0, [1]⟩, ⟨1, []⟩, ⟨2, []⟩] ∧ (⟨0, 2⟩ : Edge).source = ((0 : Nat) : Int) ∧
      0 < 3 ∧ ptrOf [⟨0, [1]⟩, ⟨1, []⟩, ⟨2, []⟩] 0 ≠ []) ∧
    (addAdjNode [⟨0, [1]⟩, ⟨1, []⟩, ⟨2, []⟩] ((0 : Nat) : Int) (⟨0, 2⟩ : Edge).destination
        = .ok ([⟨0, [1]⟩, ⟨1, []⟩, ⟨2, []⟩],
            (⟨0, 2⟩ : Edge).destination :: ptrOf [⟨0, [1]⟩, ⟨1, []⟩, ⟨2, []⟩] 0) ∧
      ∃ lh2, addEdge [⟨0, [1]⟩, ⟨1, []⟩, ⟨2, []⟩] ⟨0, 2⟩ = .ok lh2 ∧ HeadsWF 3 lh2 ∧
        ptrOf lh2 0 = (⟨0, 2⟩ : Edge).destination :: ptrOf [⟨0, [1]⟩, ⟨1, []⟩, ⟨2, []⟩] 0 ∧
        ∀ v, v ≠ 0 → ptrOf lh2 v = ptrOf [⟨0, [1]⟩, ⟨1, []⟩, ⟨2, []⟩] v) := by
  have hwf : HeadsWF 3 [⟨0, [1]⟩, ⟨1, []⟩, ⟨2, []⟩] := by
    refine ⟨rfl, ?_⟩
    intro v h hv
    match v, hv with
    | 0, hv => cases hv; rfl
    | 1, hv => cases hv; rfl
    | 2, hv => cases hv; rfl
    | n + 3, hv => simp at hv
  have hne : ptrOf [⟨0, [1]⟩, ⟨1, []⟩, ⟨2, []⟩] 0 ≠ [] := by decide
  exact ⟨⟨hwf, rfl, by decide, hne⟩,
    returned_node_is_linked 3 [⟨0, [1]⟩, ⟨1, []⟩, ⟨2, []⟩] ⟨0, 2⟩ 0 hwf rfl (by decide) hne⟩

theorem getAt_some_range {α : Type} (a : List α) (i : Int) (x : α) (h : getAt a i = some x) :
    0 ≤ i ∧ i < (a.length : Int) := by
  unfold getAt at h
  split at h
  · rename_i h0
    refine ⟨h0, ?_⟩
    obtain ⟨n, rfl⟩ := Int.eq_ofNat_of_zero_le h0
    have hn : n < a.length := (List.getElem?_eq_some_iff.mp h).1
    exact_mod_cast hn
  · cases h

/-- The only access of a constructor step that depends on the edge is
`listHead[edges[i].source]`: a step that returns had its source inside the array. -/
theorem addEdge_ok_source (lh : List AdjNode) (e : Edge) (lh2 : List AdjNode)
    (h : addEdge lh e = .ok lh2) : 0 ≤ e.source ∧ e.source < (lh.length : Int) := by
  unfold addEdge at h
  cases hget : getAt lh e.source with
  | none => simp [hget] at h
  | some x => exact getAt_some_range lh e.source x hget

/-- The edge loop of the constructor when only the sources are known to be in range:
it succeeds and puts the destinations, whatever they are, in front of the chains. -/
theorem addEdges_spec_src (N : Nat) (es : List Edge) :
    ∀ lh, HeadsWF N lh → SourcesValid N es →
      ∃ lh2, addEdges lh es = .ok lh2 ∧ HeadsWF N lh2 ∧
        ∀ v, ptrOf lh2 v = adjSpec es v ++ ptrOf lh v := by
  induction es with
  | nil =>
    intro lh hwf _
    exact ⟨lh, rfl, hwf, fun v => by simp [adjSpec]⟩
  | cons e es ih =>
    intro lh hwf hval
    have he := hval e (List.mem_cons_self _ _)
    obtain ⟨u, hu⟩ := Int.eq_ofNat_of_zero_le he.1
    have huN : u < N := by have := he.2; rw [hu] at this; exact_mod_cast this
    obtain ⟨lh1, h1, hwf1, hp1⟩ := addEdge_spec N lh e u hwf hu huN
    obtain ⟨lh2, h2, hwf2, hp2⟩ := ih lh1 hwf1 (fun x hx => hval x (List.mem_cons_of_mem _ hx))
    refine ⟨lh2, by simp [addEdges, h1, h2], hwf2, ?_⟩
    intro v
    rw [hp2 v, hp1 v, adjSpec_cons, hu]
    by_cases huv : u = v
    · subst huv; simp
    · have : ¬ ((u : Int) = (v : Int)) := by exact_mod_cast huv
      simp [huv, this]

theorem addEdges_ok_sources (N : Nat) (es : List Edge) :
    ∀ lh lh2, HeadsWF N lh → addEdges lh es = .ok lh2 → SourcesValid N es := by
  induction es with
  | nil =>
    intro _ _ _ _ e he
    simp at he
  | cons e es ih =>
    intro lh lh2 hwf h
    simp only [addEdges] at h
    cases h1 : addEdge lh e with
    | error x => simp [h1] at h
    | ok lh1 =>
      simp only [h1] at h
      have hsrc := addEdge_ok_source lh e lh1 h1
      rw [hwf.1] at hsrc
      obtain ⟨u, hu⟩ := Int.eq_ofNat_of_zero_le hsrc.1
      have huN : u < N := by have := hsrc.2; rw [hu] at this; exact_mod_cast this
      obtain ⟨lh1b, h1b, hwf1, _⟩ := addEdge_spec N lh e u hwf hu huN
      have e1 : lh1b = lh1 := by
        rw [h1] at h1b
        cases h1b
        rfl
      rw [e1] at hwf1
      have hrest := ih lh1 lh2 hwf1 h
      intro x hx
      rcases List.mem_cons.mp hx with hx | hx
      · rw [hx]; exact hsrc
      · exact hrest x hx

/-- C13, as stated, fails: the edge `(0, 5)` has its destination outside `[0, 1)`, yet
the constructor returns a graph, with the destination 5 stored in the adjacency
sequence of vertex 0; no error is raised. -/
theorem out_of_range_destination_is_accepted :
    ¬ ValidEdges 1 [⟨0, 5⟩] ∧ mkGraph 1 [⟨0, 5⟩] = .ok ⟨1, [⟨0, [5]⟩]⟩ :=
  ⟨by decide, rfl⟩

/-- C13, amended: the constructor checks no endpoint. It returns a graph exactly when
every edge source lies in `[0, N)` (the source is the only endpoint used as an array
index), whatever the destinations are; the graph then has `N` heads and the adjacency
sequence of every vertex, read in reverse, lists the destinations of its edges in
input order, out-of-range destinations included. -/
theorem construction_checks_no_endpoint (N : Nat) (edges : List Edge) :
    ((∃ g, mkGraph N edges = .ok g) ↔ SourcesValid N edges) ∧
    (SourcesValid N edges →
      ∃ g, mkGraph N edges = .ok g ∧ g.N = N ∧ g.listHead.length = N ∧
        ∀ v, v < N → (g.adj v).reverse
          = (edges.filter fun e => e.source = (v : Int)).map fun e => e.destination) := by
  have hfwd : SourcesValid N edges →
      ∃ g, mkGraph N edges = .ok g ∧ g.N = N ∧ g.listHead.length = N ∧
        ∀ v, v < N → (g.adj v).reverse
          = (edges.filter fun e => e.source = (v : Int)).map fun e => e.destination := by
    intro hsrc
    obtain ⟨lh, h1, hwf, hp⟩ := addEdges_spec_src N edges (initHeads N) (initHeads_wf N) hsrc
    refine ⟨{ N := N, listHead := lh }, by simp [mkGraph, h1], rfl, hwf.1, ?_⟩
    intro v _
    have h := hp v
    rw [ptrOf_initHeads, List.append_nil] at h
    show (ptrOf lh v).reverse = _
    rw [h, adjSpec, List.reverse_reverse]
  refine ⟨⟨?_, fun h => ?_⟩, hfwd⟩
  · rintro ⟨g, hg⟩
    unfold mkGraph at hg
    cases h1 : addEdges (initHeads N) edges with
    | error x => simp [h1] at hg
    | ok lh => exact addEdges_ok_sources N edges (initHeads N) lh (initHeads_wf N) h1
  · obtain ⟨g, hg, _⟩ := hfwd h
    exact ⟨g, hg⟩

/-- Witness for the amended C13: one vertex and the edge `(0, 5)`. -/
theorem construction_checks_no_endpoint_witness :
    SourcesValid 1 [⟨0, 5⟩] ∧ ¬ ValidEdges 1 [⟨0, 5⟩] ∧
    ∃ g, mkGraph 1 [⟨0, 5⟩] = .ok g ∧ g.N = 1 ∧ g.listHead.length = 1 ∧
      ∀ v, v < 1 → (g.adj v).reverse
        = (([⟨0, 5⟩] : List Edge).filter fun e => e.source = (v : Int)).map
            fun e => e.destination :=
  ⟨by decide, by decide, (construction_checks_no_endpoint 1 [⟨0, 5⟩]).2 (by decide)⟩

theorem descReach_mark (g : Graph) (arr : List DFSVertex) (v : Nat) (x : DFSVertex) (p : Nat)
    (hx : arr[v]? = some x) (hpv : popOf arr v = 0) (h : DescReach g arr) :
    DescReach g (arr.set v { x with push := p }) := by
  intro a b ha hb hlt hq
  rw [popOf_mark arr v x p hx] at ha hb hq
  rw [popOf_mark arr v x p hx] at hq
  rw [pushOf_mark arr v x p hx, pushOf_mark arr v x p hx] at hlt
  have hva : v ≠ a := by intro hc; rw [← hc] at ha; exact ha hpv
  have hvb : v ≠ b := by intro hc; rw [← hc] at hb; exact hb hpv
  rw [if_neg hva, if_neg hvb] at hlt
  exact h a b ha hb hlt hq

theorem descReach_finish (g : Graph) (arr : List DFSVertex) (v : Nat) (x : DFSVertex) (p : Nat)
    (hx : arr[v]? = some x) (hlt : ∀ w, popOf arr w < p)
    (hnew : ∀ w, w ≠ v → popOf arr w ≠ 0 → pushOf arr v < pushOf arr w → Reach g v w)
    (h : DescReach g arr) :
    DescReach g (arr.set v { x with pop := p }) := by
  intro a b ha hb hl hq
  rw [popOf_finish arr v x p hx] at ha hb
  rw [popOf_finish arr v x p hx, popOf_finish arr v x p hx] at hq
  rw [pushOf_finish arr v x p hx, pushOf_finish arr v x p hx] at hl
  by_cases hva : v = a
  · by_cases hvb : v = b
    · rw [← hva, ← hvb] at hl
      omega
    · rw [if_neg hvb] at hb
      rw [← hva] at hl ⊢
      exact hnew b (Ne.symm hvb) hb hl
  · by_cases hvb : v = b
    · rw [if_pos hvb, if_neg hva] at hq
      have := hlt a
      omega
    · rw [if_neg hva] at ha
      rw [if_neg hvb] at hb
      rw [if_neg hva, if_neg hvb] at hq
      exact h a b ha hb hl hq

/-- The `while` loop of `dfs` keeps `DescReach` when every call does. -/
theorem dfsLoop_descReach (g : Graph) (N f : Nat) (hg : GraphWF g N)
    (ih : ∀ (s : DState) (v : Nat) (s2 : DState), Inv g N s → DescReach g s.arr → v < N →
      pushOf s.arr v = 0 → N + 1 ≤ f + s.pushNo → dfs g f s (v : Int) = .ok s2 →
      DescReach g s2.arr) :
    ∀ (l : List Int) (s s2 : DState), (∀ d ∈ l, 0 ≤ d ∧ d < (N : Int)) → Inv g N s →
      DescReach g s.arr → N + 1 ≤ f + s.pushNo → dfsLoop (dfs g f) l s = .ok s2 →
      DescReach g s2.arr := by
  intro l
  induction l with
  | nil =>
    intro s s2 _ _ hd _ hloop
    simp only [dfsLoop] at hloop
    cases hloop
    exact hd
  | cons d rest ihl =>
    intro s s2 hrange hinv hd hfuel hloop
    have hdr := hrange d (List.mem_cons_self _ _)
    obtain ⟨w, hw⟩ := Int.eq_ofNat_of_zero_le hdr.1
    have hwN : w < N := by have := hdr.2; rw [hw] at this; exact_mod_cast this
    have hrest : ∀ d ∈ rest, 0 ≤ d ∧ d < (N : Int) :=
      fun y hy => hrange y (List.mem_cons_of_mem _ hy)
    have hwl : w < s.arr.length := by rw [hinv.len]; exact hwN
    have hget : s.arr[w]? = some s.arr[w] := List.getElem?_eq_getElem hwl
    have hpw : pushOf s.arr w = (s.arr[w]).push := pushOf_eq_getElem s.arr w hwl
    subst hw
    by_cases hz : (s.arr[w]).push = 0
    · obtain ⟨s1, h1, hinv1, hext1, _, _⟩ :=
        dfs_spec g N hg f s w hinv hwN (hpw.trans hz) hfuel
      have hm := hext1.push_mono
      have hd1 := ih s w s1 hinv hd hwN (hpw.trans hz) hfuel h1
      simp only [dfsLoop, getAt_natCast, hget, hz, if_true, h1] at hloop
      exact ihl s1 s2 hrest hinv1 hd1 (by omega) hloop
    · simp only [dfsLoop, getAt_natCast, hget, hz, if_false] at hloop
      exact ihl s s2 hrest hinv hd hfuel hloop

/-- A call of `dfs` keeps `DescReach`: whatever ends up inside the visit of the vertex
was reached from it. -/
theorem dfs_descReach (g : Graph) (N : Nat) (hg : GraphWF g N) :
    ∀ (f : Nat) (s : DState) (v : Nat) (s3 : DState), Inv g N s → DescReach g s.arr → v < N →
      pushOf s.arr v = 0 → N + 1 ≤ f + s.pushNo → dfs g f s (v : Int) = .ok s3 →
      DescReach g s3.arr := by
  intro f
  induction f with
  | zero =>
    intro s v s3 _ _ _ _ _ hdfs
    simp [dfs] at hdfs
  | succ f ih =>
    intro s v s3 hinv hdr hv h0 hfuel hdfs
    have hvl : v < s.arr.length := by rw [hinv.len]; exact hv
    have hx : s.arr[v]? = some s.arr[v] := List.getElem?_eq_getElem hvl
    have hvh : v < g.listHead.length := by rw [hg.2.1]; exact hv
    have hh : g.listHead[v]? = some g.listHead[v] := List.getElem?_eq_getElem hvh
    have hadj := adj_eq_ptr g v _ hh
    have hpos := hinv.pop_pos
    have hle := hinv.pop_le_push
    have hpv : popOf s.arr v = 0 := by
      by_contra hc
      exact hinv.fin_disc v hc h0
    have hinv1 := inv_mark g N s v _ hinv hx h0
    have hpush1 := pushOf_mark s.arr v _ s.pushNo hx
    have hpop1 := popOf_mark s.arr v _ s.pushNo hx
    have hdr1 := descReach_mark g s.arr v _ s.pushNo hx hpv hdr
    obtain ⟨s2, hloop, hinv2, hext, _⟩ := dfsLoop_spec g N f (dfs_spec g N hg f)
      (g.listHead[v]).ptr _
      (fun d hd => hg.2.2 v d (by rw [hadj]; exact hd)) hinv1
      (by show N + 1 ≤ f + (s.pushNo + 1); omega)
    have hdr2 := dfsLoop_descReach g N f hg ih (g.listHead[v]).ptr _ s2
      (fun d hd => hg.2.2 v d (by rw [hadj]; exact hd)) hinv1 hdr1
      (by show N + 1 ≤ f + (s.pushNo + 1); omega) hloop
    have hframe := hext.frame
    have hfresh := hext.fresh
    have hreach := hext.reach
    simp only [] at hframe hfresh hreach
    have hv1 : pushOf (s.arr.set v { s.arr[v] with push := s.pushNo }) v ≠ 0 := by
      rw [hpush1]; simp; omega
    have hpv2 : pushOf s2.arr v = s.pushNo := by
      rw [(hframe v hv1).1, hpush1]; simp
    have hvl2 : v < s2.arr.length := by rw [hinv2.len]; exact hv
    have hy : s2.arr[v]? = some s2.arr[v] := List.getElem?_eq_getElem hvl2
    simp only [dfs, getAt_natCast, hh, hx, setAt_natCast _ _ _ hvl, hloop, hy,
      setAt_natCast _ _ _ hvl2] at hdfs
    cases hdfs
    show DescReach g (s2.arr.set v _)
    refine descReach_finish g s2.arr v _ s2.popNo hy hinv2.pop_lt ?_ hdr2
    intro w hwv hwfin hlt
    have hw2 : pushOf s2.arr w ≠ 0 := hinv2.fin_disc w hwfin
    have hw1 : pushOf (s.arr.set v { s.arr[v] with push := s.pushNo }) w = 0 := by
      by_contra hc
      have e := (hframe w hc).1
      rw [hpush1, if_neg (Ne.symm hwv)] at e
      have := hinv.push_lt w
      omega
    obtain ⟨r, hr, hp⟩ := hreach w hw1 hw2
    exact Relation.ReflTransGen.head (by rw [hadj]; exact hr) hp

/-- The second loop of `dfsWrapper` keeps `DescReach`. -/
theorem outerLoop_descReach (g : Graph) (N : Nat) (hg : GraphWF g N) :
    ∀ (l : List Nat) (s s2 : DState), (∀ i ∈ l, i < N) → Inv g N s → DescReach g s.arr →
      outerLoop g N l s = .ok s2 → DescReach g s2.arr := by
  intro l
  induction l with
  | nil =>
    intro s s2 _ _ hd hloop
    simp only [outerLoop] at hloop
    cases hloop
    exact hd
  | cons i rest ihl =>
    intro s s2 hrange hinv hd hloop
    have hiN : i < N := hrange i (List.mem_cons_self _ _)
    have hrest : ∀ j ∈ rest, j < N := fun j hj => hrange j (List.mem_cons_of_mem _ hj)
    have hil : i < s.arr.length := by rw [hinv.len]; exact hiN
    have hget : s.arr[i]? = some s.arr[i] := List.getElem?_eq_getElem hil
    have hpi : pushOf s.arr i = (s.arr[i]).push := pushOf_eq_getElem s.arr i hil
    have hpos := hinv.pop_pos
    have hle := hinv.pop_le_push
    by_cases hz : (s.arr[i]).push = 0
    · obtain ⟨s1, h1, hinv1, _, _, _⟩ :=
        dfs_spec g N hg N s i hinv hiN (hpi.trans hz) (by omega)
      have hd1 := dfs_descReach g N hg N s i s1 hinv hd hiN (hpi.trans hz) (by omega) h1
      simp only [outerLoop, hget, hz, if_true, h1] at hloop
      exact ihl s1 s2 hrest hinv1 hd1 hloop
    · simp only [outerLoop, hget, hz, if_false] at hloop
      exact ihl s s2 hrest hinv hd hloop

/-- In the final state of a run on valid edges, a vertex discovered after `v` and
finished before `v` can be reached from `v`. -/
theorem final_descReach (N : Nat) (edges : List Edge) (hval : ValidEdges N edges) :
    ∃ g s, mkGraph N edges = .ok g ∧ GraphWF g N ∧ (∀ v, g.adj v = adjSpec edges v) ∧
      dfsWrapper g = .ok s ∧ Inv g N s ∧ Ext g (fun r => r < N) (initState N) s ∧
      (∀ v, v < N → pushOf s.arr v ≠ 0) ∧ run N edges = .ok s.arr ∧ DescReach g s.arr := by
  obtain ⟨g, s, hmk, hg, hadj, hw, hinv, hext, hall, hrun⟩ := traversal_spec N edges hval
  refine ⟨g, s, hmk, hg, hadj, hw, hinv, hext, hall, hrun, ?_⟩
  have hw2 : outerLoop g N (List.range N) (initState N) = .ok s := by
    have := hw
    unfold dfsWrapper dfsWrapperFuel at this
    rw [hg.1] at this
    exact this
  refine outerLoop_descReach g N hg (List.range N) (initState N) s
    (fun i hi => List.mem_range.mp hi) (inv_initState g N) ?_ hw2
  intro a b ha
  exact absurd (popOf_replicate N a _ rfl) ha

/-- C11, as stated, fails: in the sample of `main` vertex 4 has an empty adjacency
sequence, push number 5 and pop number 1; on the one-vertex graph without edges vertex
0 has push number 1 and pop number 1. In neither case is the pop number the push
number plus one. -/
theorem leaf_pop_is_not_push_plus_one :
    (∃ g arr, mkGraph 6 sampleEdges = .ok g ∧ run 6 sampleEdges = .ok arr ∧
      g.adj 4 = [] ∧ pushOf arr 4 = 5 ∧ popOf arr 4 = 1 ∧
      popOf arr 4 ≠ pushOf arr 4 + 1) ∧
    (∃ g arr, mkGraph 1 [] = .ok g ∧ run 1 [] = .ok arr ∧
      g.adj 0 = [] ∧ pushOf arr 0 = 1 ∧ popOf arr 0 = 1 ∧
      popOf arr 0 ≠ pushOf arr 0 + 1) :=
  ⟨⟨_, _, rfl, rfl, rfl, rfl, rfl, by decide⟩, ⟨_, _, rfl, rfl, rfl, rfl, rfl, by decide⟩⟩

/-- C11, amended: for every vertex `v` with an empty adjacency sequence, no vertex is
discovered after `v` and finished before `v` (the visit of `v` encloses nothing), so
the pop number of `v` is its push number minus the number of vertices whose visit
encloses that of `v`; in particular it is at most the push number. -/
theorem leaf_visit_encloses_nothing (N : Nat) (edges : List Edge) (hval : ValidEdges N edges) :
    ∃ g arr, mkGraph N edges = .ok g ∧ run N edges = .ok arr ∧
      ∀ v, v < N → g.adj v = [] →
        enclosed arr v = 0 ∧ pushOf arr v = popOf arr v + enclosing arr v ∧
        popOf arr v ≤ pushOf arr v := by
  obtain ⟨g, s, hmk, _, _, _, hinv, hext, hall, hrun, hdr⟩ := final_descReach N edges hval
  obtain ⟨_, _, hfin⟩ := final_facts g N s hinv hext hall
  refine ⟨g, s.arr, hmk, hrun, ?_⟩
  intro v hv hleaf
  have h0 : enclosed s.arr v = 0 := by
    unfold enclosed
    rw [Finset.card_eq_zero, Finset.filter_eq_empty_iff]
    intro w hw hc
    rw [Finset.mem_range, hinv.len] at hw
    have hr := hdr v w (hfin v hv) (hfin w hw) hc.1 hc.2
    rcases Relation.ReflTransGen.cases_head hr with h | ⟨b, hb, _⟩
    · rw [h] at hc
      omega
    · rw [hleaf] at hb
      simp at hb
  have hbal := push_pop_balance N s.arr hinv.len (twoCounter_of_final g N s hinv hext hall) v hv
  rw [h0] at hbal
  exact ⟨h0, by omega, by omega⟩

/-- Witness for the amended C11 on the sample of `main` (vertex 4 has no out-edge). -/
theorem leaf_visit_encloses_nothing_witness :
    ValidEdges 6 sampleEdges ∧
    ∃ g arr, mkGraph 6 sampleEdges = .ok g ∧ run 6 sampleEdges = .ok arr ∧
      ∀ v, v < 6 → g.adj v = [] →
        enclosed arr v = 0 ∧ pushOf arr v = popOf arr v + enclosing arr v ∧
        popOf arr v ≤ pushOf arr v :=
  ⟨by decide, leaf_visit_encloses_nothing 6 sampleEdges (by decide)⟩

theorem discOf_mark (res : List Times) (v : Nat) (x : Times) (p : Nat)
    (hx : res[v]? = some x) (w : Nat) :
    discOf (res.set v { x with discovery := p }) w = if v = w then p else discOf res w := by
  have hv : v < res.length := (List.getElem?_eq_some_iff.mp hx).1
  unfold discOf
  by_cases hvw : v = w
  · subst hvw
    simp [List.getElem?_set, hv]
  · simp [List.getElem?_set, hvw]

theorem finOf_mark (res : List Times) (v : Nat) (x : Times) (p : Nat)
    (hx : res[v]? = some x) (w : Nat) :
    finOf (res.set v { x with discovery := p }) w = finOf res w := by
  have hv : v < res.length := (List.getElem?_eq_some_iff.mp hx).1
  unfold finOf
  by_cases hvw : v = w
  · subst hvw
    simp [List.getElem?_set, hv, hx]
  · simp [List.getElem?_set, hvw]

theorem discOf_finish (res : List Times) (v : Nat) (x : Times) (p : Nat)
    (hx : res[v]? = some x) (w : Nat) :
    discOf (res.set v { x with finish := p }) w = discOf res w := by
  have hv : v < res.length := (List.getElem?_eq_some_iff.mp hx).1
  unfold discOf
  by_cases hvw : v = w
  · subst hvw
    simp [List.getElem?_set, hv, hx]
  · simp [List.getElem?_set, hvw]

theorem finOf_finish (res : List Times) (v : Nat) (x : Times) (p : Nat)
    (hx : res[v]? = some x) (w : Nat) :
    finOf (res.set v { x with finish := p }) w = if v = w then p else finOf res w := by
  have hv : v < res.length := (List.getElem?_eq_some_iff.mp hx).1
  unfold finOf
  by_cases hvw : v = w
  · subst hvw
    simp [List.getElem?_set, hv]
  · simp [List.getElem?_set, hvw]

/-- Numbering a vertex with the current value of a counter that bounds all numbers
keeps two numberings ordered alike. -/
theorem ord_update (a b : Nat → Nat) (p q : Nat) (v : Nat)
    (ha : ∀ w, a w < p) (hb : ∀ w, b w < q)
    (h : ∀ u w, a u < a w ↔ b u < b w) (u w : Nat) :
    ((if v = u then p else a u) < (if v = w then p else a w)) ↔
      ((if v = u then q else b u) < (if v = w then q else b w)) := by
  have hau := ha u
  have haw := ha w
  have hbu := hb u
  have hbw := hb w
  by_cases hvu : v = u
  · by_cases hvw : v = w
    · simp only [if_pos hvu, if_pos hvw]
      omega
    · simp only [if_pos hvu, if_neg hvw]
      omega
  · by_cases hvw : v = w
    · simp only [if_neg hvu, if_pos hvw]
      omega
    · simp only [if_neg hvu, if_neg hvw]
      exact h u w

/-- Marking the same vertex in both traversals keeps the agreement. -/
theorem sim_mark (s : DState) (t : RefState) (v : Nat) (x : DFSVertex) (y : Times)
    (h : Sim s t) (hx : s.arr[v]? = some x) (hy : t.result[v]? = some y) :
    Sim { s with pushNo := s.pushNo + 1, arr := s.arr.set v { x with push := s.pushNo } }
      { timeCounter := t.timeCounter + 1,
        result := t.result.set v { y with discovery := t.timeCounter } } := by
  have hpush := pushOf_mark s.arr v x s.pushNo hx
  have hpop := popOf_mark s.arr v x s.pushNo hx
  have hdisc := discOf_mark t.result v y t.timeCounter hy
  have hfin := finOf_mark t.result v y t.timeCounter hy
  have h1 := h.push_pos
  have h2 := h.time_pos
  constructor
  · simpa using h.len
  · show 1 ≤ s.pushNo + 1
    omega
  · exact h.pop_pos
  · show 1 ≤ t.timeCounter + 1
    omega
  · intro w
    show pushOf _ w < s.pushNo + 1
    rw [hpush]
    have := h.push_lt w
    split <;> omega
  · intro w
    show popOf _ w < s.popNo
    rw [hpop]
    exact h.pop_lt w
  · intro w
    show discOf _ w < t.timeCounter + 1
    rw [hdisc]
    have := h.disc_lt w
    split <;> omega
  · intro w
    show finOf _ w < t.timeCounter + 1
    rw [hfin]
    have := h.fin_lt w
    omega
  · intro w
    show pushOf _ w = 0 ↔ discOf _ w = 0
    rw [hpush, hdisc]
    by_cases hvw : v = w
    · simp only [if_pos hvw]
      omega
    · simp only [if_neg hvw]
      exact h.zero w
  · intro u w
    show pushOf _ u < pushOf _ w ↔ discOf _ u < discOf _ w
    rw [hpush, hpush, hdisc, hdisc]
    exact ord_update _ _ _ _ v h.push_lt h.disc_lt h.push_ord u w
  · intro u w
    show popOf _ u < popOf _ w ↔ finOf _ u < finOf _ w
    rw [hpop, hpop, hfin, hfin]
    exact h.pop_ord u w

/-- Finishing the same vertex in both traversals keeps the agreement. -/
theorem sim_finish (s : DState) (t : RefState) (v : Nat) (x : DFSVertex) (y : Times)
    (h : Sim s t) (hx : s.arr[v]? = some x) (hy : t.result[v]? = some y) :
    Sim { s with popNo := s.popNo + 1, arr := s.arr.set v { x with pop := s.popNo } }
      { timeCounter := t.timeCounter + 1,
        result := t.result.set v { y with finish := t.timeCounter } } := by
  have hpush := pushOf_finish s.arr v x s.popNo hx
  have hpop := popOf_finish s.arr v x s.popNo hx
  have hdisc := discOf_finish t.result v y t.timeCounter hy
  have hfin := finOf_finish t.result v y t.timeCounter hy
  have h1 := h.pop_pos
  have h2 := h.time_pos
  constructor
  · simpa using h.len
  · exact h.push_pos
  · show 1 ≤ s.popNo + 1
    omega
  · show 1 ≤ t.timeCounter + 1
    omega
  · intro w
    show pushOf _ w < s.pushNo
    rw [hpush]
    exact h.push_lt w
  · intro w
    show popOf _ w < s.popNo + 1
    rw [hpop]
    have := h.pop_lt w
    split <;> omega
  · intro w
    show discOf _ w < t.timeCounter + 1
    rw [hdisc]
    have := h.disc_lt w
    omega
  · intro w
    show finOf _ w < t.timeCounter + 1
    rw [hfin]
    have := h.fin_lt w
    split <;> omega
  · intro w
    show pushOf _ w = 0 ↔ discOf _ w = 0
    rw [hpush, hdisc]
    exact h.zero w
  · intro u w
    show pushOf _ u < pushOf _ w ↔ discOf _ u < discOf _ w
    rw [hpush, hpush, hdisc, hdisc]
    exact h.push_ord u w
  · intro u w
    show popOf _ u < popOf _ w ↔ finOf _ u < finOf _ w
    rw [hpop, hpop, hfin, hfin]
    exact ord_update _ _ _ _ v h.pop_lt h.fin_lt h.pop_ord u w

theorem getAt_some_nat {α : Type} (a : List α) (i : Int) (x : α) (h : getAt a i = some x) :
    ∃ n : Nat, i = (n : Int) ∧ a[n]? = some x := by
  unfold getAt at h
  split at h
  · rename_i h0
    obtain ⟨n, rfl⟩ := Int.eq_ofNat_of_zero_le h0
    exact ⟨n, rfl, by simpa using h⟩
  · cases h

/-- The `while` loop of `dfs` is followed step by step by the neighbor loop of the
reference traversal when every call is. -/
theorem sim_loop (g : Graph) (f : Nat)
    (ih : ∀ (s : DState) (t : RefState) (node : Int) (s2 : DState), Sim s t →
      dfs g f s node = .ok s2 → ∃ t2, refVisit g f t node = .ok t2 ∧ Sim s2 t2) :
    ∀ (l : List Int) (s : DState) (t : RefState) (s2 : DState), Sim s t →
      dfsLoop (dfs g f) l s = .ok s2 →
      ∃ t2, refVisitLoop (refVisit g f) l t = .ok t2 ∧ Sim s2 t2 := by
  intro l
  induction l with
  | nil =>
    intro s t s2 hsim hloop
    simp only [dfsLoop] at hloop
    cases hloop
    exact ⟨t, rfl, hsim⟩
  | cons d rest ihl =>
    intro s t s2 hsim hloop
    simp only [dfsLoop] at hloop
    cases hx : getAt s.arr d with
    | none => simp [hx] at hloop
    | some x =>
      simp only [hx] at hloop
      obtain ⟨n, hn, hxn⟩ := getAt_some_nat s.arr d x hx
      subst hn
      have hnl : n < s.arr.length := (List.getElem?_eq_some_iff.mp hxn).1
      have hnt : n < t.result.length := by rw [hsim.len]; exact hnl
      have hyn : t.result[n]? = some t.result[n] := List.getElem?_eq_getElem hnt
      have hpx : pushOf s.arr n = x.push := by simp [pushOf, hxn]
      have hdy : discOf t.result n = (t.result[n]).discovery := by simp [discOf, hyn]
      have hz := hsim.zero n
      rw [hpx, hdy] at hz
      by_cases h0 : x.push = 0
      · simp only [h0, if_true] at hloop
        cases hv : dfs g f s (n : Int) with
        | error e => simp [hv] at hloop
        | ok s1 =>
          simp only [hv] at hloop
          obtain ⟨t1, hr1, hsim1⟩ := ih s t _ s1 hsim hv
          obtain ⟨t2, hr2, hsim2⟩ := ihl s1 t1 s2 hsim1 hloop
          refine ⟨t2, ?_, hsim2⟩
          simp only [refVisitLoop, getAt_natCast, hyn, hz.mp h0, if_true, hr1, hr2]
      · simp only [h0, if_false] at hloop
        obtain ⟨t2, hr2, hsim2⟩ := ihl s t s2 hsim hloop
        refine ⟨t2, ?_, hsim2⟩
        have h0t : ¬ (t.result[n]).discovery = 0 := fun hc => h0 (hz.mpr hc)
        simp only [refVisitLoop, getAt_natCast, hyn, h0t, if_false, hr2]

/-- Every call of `dfs` that returns is followed by `Visit` of the reference traversal:
started in agreeing states, the reference returns too, in an agreeing state. -/
theorem sim_dfs (g : Graph) :
    ∀ (f : Nat) (s : DState) (t : RefState) (node : Int) (s3 : DState), Sim s t →
      dfs g f s node = .ok s3 → ∃ t3, refVisit g f t node = .ok t3 ∧ Sim s3 t3 := by
  intro f
  induction f with
  | zero =>
    intro s t node s3 _ hdfs
    simp [dfs] at hdfs
  | succ f ih =>
    intro s t node s3 hsim hdfs
    rw [dfs] at hdfs
    cases hh : getAt g.listHead node with
    | none => simp [hh] at hdfs
    | some h =>
      simp only [hh] at hdfs
      cases hx : getAt s.arr node with
      | none => simp [hx] at hdfs
      | some x =>
        simp only [hx] at hdfs
        obtain ⟨n, hn, hxn⟩ := getAt_some_nat s.arr node x hx
        subst hn
        have hnl : n < s.arr.length := (List.getElem?_eq_some_iff.mp hxn).1
        have hnt : n < t.result.length := by rw [hsim.len]; exact hnl
        have hyn : t.result[n]? = some t.result[n] := List.getElem?_eq_getElem hnt
        simp only [setAt_natCast _ _ _ hnl] at hdfs
        have hsim1 := sim_mark s t n x _ hsim hxn hyn
        cases hloop : dfsLoop (dfs g f) h.ptr
            { s with pushNo := s.pushNo + 1, arr := s.arr.set n { x with push := s.pushNo } } with
        | error e => simp [hloop] at hdfs
        | ok s2 =>
          simp only [hloop] at hdfs
          obtain ⟨t2, hr2, hsim2⟩ := sim_loop g f ih h.ptr _ _ s2 hsim1 hloop
          cases hy : getAt s2.arr (n : Int) with
          | none => simp [hy] at hdfs
          | some y =>
            simp only [hy] at hdfs
            rw [getAt_natCast] at hy
            have hnl2 : n < s2.arr.length := (List.getElem?_eq_some_iff.mp hy).1
            have hnt2 : n < t2.result.length := by rw [hsim2.len]; exact hnl2
            have hyn2 : t2.result[n]? = some t2.result[n] := List.getElem?_eq_getElem hnt2
            simp only [setAt_natCast _ _ _ hnl2] at hdfs
            cases hdfs
            refine ⟨_, ?_, sim_finish s2 t2 n y _ hsim2 hy hyn2⟩
            simp only [refVisit, getAt_natCast, hyn, setAt_natCast _ _ _ hnt, hh, hr2, hyn2,
              setAt_natCast _ _ _ hnt2]

/-- The second loop of `dfsWrapper` is followed by the outer loop of the reference
traversal. -/
theorem sim_outer (g : Graph) (fuel : Nat) :
    ∀ (l : List Nat) (s : DState) (t : RefState) (s2 : DState), Sim s t →
      outerLoop g fuel l s = .ok s2 →
      ∃ t2, refOuterLoop g fuel l t = .ok t2 ∧ Sim s2 t2 := by
  intro l
  induction l with
  | nil =>
    intro s t s2 hsim hloop
    simp only [outerLoop] at hloop
    cases hloop
    exact ⟨t, rfl, hsim⟩
  | cons i rest ihl =>
    intro s t s2 hsim hloop
    simp only [outerLoop] at hloop
    cases hx : s.arr[i]? with
    | none => simp [hx] at hloop
    | some x =>
      simp only [hx] at hloop
      have hil : i < s.arr.length := (List.getElem?_eq_some_iff.mp hx).1
      have hit : i < t.result.length := by rw [hsim.len]; exact hil
      have hyi : t.result[i]? = some t.result[i] := List.getElem?_eq_getElem hit
      have hpx : pushOf s.arr i = x.push := by simp [pushOf, hx]
      have hdy : discOf t.result i = (t.result[i]).discovery := by simp [discOf, hyi]
      have hz := hsim.zero i
      rw [hpx, hdy] at hz
      by_cases h0 : x.push = 0
      · simp only [h0, if_true] at hloop
        cases hv : dfs g fuel s (i : Int) with
        | error e => simp [hv] at hloop
        | ok s1 =>
          simp only [hv] at hloop
          obtain ⟨t1, hr1, hsim1⟩ := sim_dfs g fuel s t _ s1 hsim hv
          obtain ⟨t2, hr2, hsim2⟩ := ihl s1 t1 s2 hsim1 hloop
          refine ⟨t2, ?_, hsim2⟩
          simp only [refOuterLoop, hyi, hz.mp h0, if_true, hr1, hr2]
      · simp only [h0, if_false] at hloop
        obtain ⟨t2, hr2, hsim2⟩ := ihl s t s2 hsim hloop
        refine ⟨t2, ?_, hsim2⟩
        have h0t : ¬ (t.result[i]).discovery = 0 := fun hc => h0 (hz.mpr hc)
        simp only [refOuterLoop, hyi, h0t, if_false, hr2]

theorem discOf_replicate (N v : Nat) (x : Times) (hx : x.discovery = 0) :
    discOf (List.replicate N x) v = 0 := by
  unfold discOf
  split
  · rename_i y hy
    rw [List.getElem?_replicate] at hy
    split at hy
    · cases hy; exact hx
    · cases hy
  · rfl

theorem finOf_replicate (N v : Nat) (x : Times) (hx : x.finish = 0) :
    finOf (List.replicate N x) v = 0 := by
  unfold finOf
  split
  · rename_i y hy
    rw [List.getElem?_replicate] at hy
    split at hy
    · cases hy; exact hx
    · cases hy
  · rfl

/-- The initial states of the two traversals agree. -/
theorem sim_init (N : Nat) : Sim (initState N) (refInit N) := by
  have hp : ∀ v, pushOf (initState N).arr v = 0 := fun v => pushOf_replicate N v _ rfl
  have hq : ∀ v, popOf (initState N).arr v = 0 := fun v => popOf_replicate N v _ rfl
  have hd : ∀ v, discOf (refInit N).result v = 0 := fun v => discOf_replicate N v _ rfl
  have hf : ∀ v, finOf (refInit N).result v = 0 := fun v => finOf_replicate N v _ rfl
  constructor
  · simp [initState, refInit]
  · exact le_refl _
  · exact le_refl _
  · exact le_refl _
  · intro v; rw [hp]; exact Nat.one_pos
  · intro v; rw [hq]; exact Nat.one_pos
  · intro v; rw [hd]; exact Nat.one_pos
  · intro v; rw [hf]; exact Nat.one_pos
  · intro v; rw [hp, hd]
  · intro u w; rw [hp, hp, hd, hd]
  · intro u w; rw [hq, hq, hf, hf]

/-- C16: the traversal advances each of its two counters exactly once per vertex (both
end at `N + 1`); the push numbers are pairwise distinct and are exactly `1 .. N`, and
so are the pop numbers; the push number of `v` is its rank among the push numbers (one
more than the number of vertices with a smaller push number), the pop number of `v` is
its rank among the pop numbers. -/
theorem push_and_pop_are_ranks (N : Nat) (edges : List Edge) (hval : ValidEdges N edges) :
    ∃ g s, mkGraph N edges = .ok g ∧ dfsWrapper g = .ok s ∧ run N edges = .ok s.arr ∧
      s.pushNo = N + 1 ∧ s.popNo = N + 1 ∧ s.arr.length = N ∧
      TwoCounterNumbering N s.arr ∧
      ∀ v, v < N →
        pushOf s.arr v
          = ((Finset.range N).filter fun w => pushOf s.arr w < pushOf s.arr v).card + 1 ∧
        popOf s.arr v
          = ((Finset.range N).filter fun w => popOf s.arr w < popOf s.arr v).card + 1 := by
  obtain ⟨g, s, hmk, _, _, hw, hinv, hext, hall, hrun⟩ := traversal_spec N edges hval
  obtain ⟨hP, hQ, _⟩ := final_facts g N s hinv hext hall
  have htwo := twoCounter_of_final g N s hinv hext hall
  refine ⟨g, s, hmk, hw, hrun, hP, hQ, hinv.len, htwo, ?_⟩
  intro v hv
  obtain ⟨hr, hpi, hqi, hps, hqs⟩ := htwo
  have hA := card_numbered_below N (pushOf s.arr) hpi hps
    (fun w hw => ⟨(hr w hw).1, (hr w hw).2.1⟩) v hv
  have hB := card_numbered_below N (popOf s.arr) hqi hqs
    (fun w hw => ⟨(hr w hw).2.2.1, (hr w hw).2.2.2⟩) v hv
  exact ⟨hA.symm, hB.symm⟩

/-- Witness for C16 on the sample of `main`. -/
theorem push_and_pop_are_ranks_witness :
    ValidEdges 6 sampleEdges ∧
    ∃ g s, mkGraph 6 sampleEdges = .ok g ∧ dfsWrapper g = .ok s ∧
      run 6 sampleEdges = .ok s.arr ∧
      s.pushNo = 6 + 1 ∧ s.popNo = 6 + 1 ∧ s.arr.length = 6 ∧
      TwoCounterNumbering 6 s.arr ∧
      ∀ v, v < 6 →
        pushOf s.arr v
          = ((Finset.range 6).filter fun w => pushOf s.arr w < pushOf s.arr v).card + 1 ∧
        popOf s.arr v
          = ((Finset.range 6).filter fun w => popOf s.arr w < popOf s.arr v).card + 1 :=
  ⟨by decide, push_and_pop_are_ranks 6 sampleEdges (by decide)⟩

/-- C18: on every graph built from in-range edges the code and the reference traversal
with one shared counter both return, they discover and finish the same vertices (all
of them), and for all vertices `u`, `v` the push number of `u` is below that of `v`
exactly when the reference discovers `u` before `v`, and the pop number of `u` is
below that of `v` exactly when the reference finishes `u` before `v`. -/
theorem code_order_equivalent_to_reference (N : Nat) (edges : List Edge)
    (hval : ValidEdges N edges) :
    ∃ arr res, run N edges = .ok arr ∧ refRun N edges = .ok res ∧
      arr.length = N ∧ res.length = N ∧
      (∀ v, v < N → pushOf arr v ≠ 0 ∧ popOf arr v ≠ 0 ∧ discOf res v ≠ 0 ∧ finOf res v ≠ 0) ∧
      ∀ u v, u < N → v < N →
        (pushOf arr u < pushOf arr v ↔ discOf res u < discOf res v) ∧
        (popOf arr u < popOf arr v ↔ finOf res u < finOf res v) := by
  obtain ⟨g, s, hmk, hg, _, hw, hinv, hext, hall, hrun⟩ := traversal_spec N edges hval
  obtain ⟨_, _, hfin⟩ := final_facts g N s hinv hext hall
  have hw2 : outerLoop g g.N (List.range g.N) (initState g.N) = .ok s := hw
  obtain ⟨t, hr, hsim⟩ := sim_outer g g.N (List.range g.N) (initState g.N) (refInit g.N) s
    (sim_init g.N) hw2
  have href : refRun N edges = .ok t.result := by
    have h1 : refRunDFS g = .ok t := hr
    simp only [refRun, hmk, h1]
  refine ⟨s.arr, t.result, hrun, href, hinv.len, by rw [hsim.len, hinv.len], ?_, ?_⟩
  · intro v hv
    have hp := hall v hv
    have hq := hfin v hv
    refine ⟨hp, hq, fun hc => hp ((hsim.zero v).mpr hc), ?_⟩
    have hz : popOf s.arr N = 0 := popOf_of_le s.arr N (by rw [hinv.len])
    have hzt : finOf t.result N = 0 := by
      unfold finOf
      rw [List.getElem?_eq_none (by rw [hsim.len, hinv.len])]
    have := (hsim.pop_ord N v).mp (by omega)
    omega
  · intro u v _ _
    exact ⟨hsim.push_ord u v, hsim.pop_ord u v⟩

/-- Witness for C18 on the sample of `main`, with the times the reference assigns. -/
theorem code_order_equivalent_to_reference_witness :
    ValidEdges 6 sampleEdges ∧
    (∃ arr res, run 6 sampleEdges = .ok arr ∧ refRun 6 sampleEdges = .ok res ∧
      arr.length = 6 ∧ res.length = 6 ∧
      (∀ v, v < 6 → pushOf arr v ≠ 0 ∧ popOf arr v ≠ 0 ∧ discOf res v ≠ 0 ∧ finOf res v ≠ 0) ∧
      ∀ u v, u < 6 → v < 6 →
        (pushOf arr u < pushOf arr v ↔ discOf res u < discOf res v) ∧
        (popOf arr u < popOf arr v ↔ finOf res u < finOf res v)) ∧
    refRun 6 sampleEdges = .ok [⟨1, 12⟩, ⟨4, 7⟩, ⟨2, 11⟩, ⟨8, 9⟩, ⟨5, 6⟩, ⟨3, 10⟩] :=
  ⟨by decide, code_order_equivalent_to_reference 6 sampleEdges (by decide), rfl⟩

theorem laminar_mark (arr : List DFSVertex) (x : Nat) (e : DFSVertex) (p : Nat)
    (hx : arr[x]? = some e) (hpx : popOf arr x = 0) (h : Laminar arr) :
    Laminar (arr.set x { e with push := p }) := by
  have hpop := popOf_mark arr x e p hx
  have hpush := pushOf_mark arr x e p hx
  intro u v w hu hv hw hwu hwv hlt
  unfold Inside at hwu hwv
  rw [hpop] at hu hv hw
  rw [hpush, hpush, hpop, hpop] at hwu hwv
  rw [hpush, hpush] at hlt
  rw [hpop, hpop]
  have hxu : x ≠ u := by intro hc; rw [← hc] at hu; exact hu hpx
  have hxv : x ≠ v := by intro hc; rw [← hc] at hv; exact hv hpx
  have hxw : x ≠ w := by intro hc; rw [← hc] at hw; exact hw hpx
  rw [if_neg hxu, if_neg hxw] at hwu
  rw [if_neg hxv, if_neg hxw] at hwv
  rw [if_neg hxu, if_neg hxv] at hlt
  exact h u v w hu hv hw hwu hwv hlt

/-- Finishing `x` keeps `Laminar` when the pop counter value `q` at the discovery of `x`
separates the vertices finished before that discovery from those discovered after
it. -/
theorem laminar_finish (arr : List DFSVertex) (x : Nat) (e : DFSVertex) (p q : Nat)
    (hx : arr[x]? = some e) (hlt : ∀ w, popOf arr w < p)
    (hold : ∀ u, u ≠ x → popOf arr u ≠ 0 → pushOf arr u < pushOf arr x → popOf arr u < q)
    (hnew : ∀ w, w ≠ x → popOf arr w ≠ 0 → pushOf arr x < pushOf arr w → q ≤ popOf arr w)
    (h : Laminar arr) :
    Laminar (arr.set x { e with pop := p }) := by
  have hpop := popOf_finish arr x e p hx
  have hpush := pushOf_finish arr x e p hx
  intro u v w hu hv hw hwu hwv hl
  unfold Inside at hwu hwv
  rw [hpop] at hu hv hw
  rw [hpush, hpush, hpop, hpop] at hwu hwv
  rw [hpush, hpush] at hl
  rw [hpop, hpop]
  have bu := hlt u
  have bv := hlt v
  have bw := hlt w
  by_cases hxw : x = w
  · -- the vertex just finished lies inside no visit
    rw [if_pos hxw] at hwu
    by_cases hxu : x = u
    · rw [if_pos hxu] at hwu; omega
    · rw [if_neg hxu] at hwu; omega
  · rw [if_neg hxw] at hw hwu hwv
    by_cases hxu : x = u
    · by_cases hxv : x = v
      · rw [← hxu, ← hxv] at hl; omega
      · rw [if_pos hxu, if_neg hxv]; omega
    · rw [if_neg hxu] at hu hwu
      by_cases hxv : x = v
      · -- `u` was finished before `x` was discovered, `w` is discovered after `x`
        rw [← hxv] at hl hwv
        have a := hold u (Ne.symm hxu) hu hl
        have b := hnew w (Ne.symm hxw) hw hwv.1
        omega
      · rw [if_neg hxv] at hv hwv
        rw [if_neg hxu, if_neg hxv]
        exact h u v w hu hv hw hwu hwv hl

/-- The `while` loop of `dfs` keeps `Laminar` when every call does. -/
theorem dfsLoop_laminar (g : Graph) (N f : Nat) (hg : GraphWF g N)
    (ih : ∀ (s : DState) (v : Nat) (s2 : DState), Inv g N s → Laminar s.arr → v < N →
      pushOf s.arr v = 0 → N + 1 ≤ f + s.pushNo → dfs g f s (v : Int) = .ok s2 →
      Laminar s2.arr) :
    ∀ (l : List Int) (s s2 : DState), (∀ d ∈ l, 0 ≤ d ∧ d < (N : Int)) → Inv g N s →
      Laminar s.arr → N + 1 ≤ f + s.pushNo → dfsLoop (dfs g f) l s = .ok s2 →
      Laminar s2.arr := by
  intro l
  induction l with
  | nil =>
    intro s s2 _ _ hd _ hloop
    simp only [dfsLoop] at hloop
    cases hloop
    exact hd
  | cons d rest ihl =>
    intro s s2 hrange hinv hd hfuel hloop
    have hdr := hrange d (List.mem_cons_self _ _)
    obtain ⟨w, hw⟩ := Int.eq_ofNat_of_zero_le hdr.1
    have hwN : w < N := by have := hdr.2; rw [hw] at this; exact_mod_cast this
    have hrest : ∀ d ∈ rest, 0 ≤ d ∧ d < (N : Int) :=
      fun y hy => hrange y (List.mem_cons_of_mem _ hy)
    have hwl : w < s.arr.length := by rw [hinv.len]; exact hwN
    have hget : s.arr[w]? = some s.arr[w] := List.getElem?_eq_getElem hwl
    have hpw : pushOf s.arr w = (s.arr[w]).push := pushOf_eq_getElem s.arr w hwl
    subst hw
    by_cases hz : (s.arr[w]).push = 0
    · obtain ⟨s1, h1, hinv1, hext1, _, _⟩ :=
        dfs_spec g N hg f s w hinv hwN (hpw.trans hz) hfuel
      have hm := hext1.push_mono
      have hd1 := ih s w s1 hinv hd hwN (hpw.trans hz) hfuel h1
      simp only [dfsLoop, getAt_natCast, hget, hz, if_true, h1] at hloop
      exact ihl s1 s2 hrest hinv1 hd1 (by omega) hloop
    · simp only [dfsLoop, getAt_natCast, hget, hz, if_false] at hloop
      exact ihl s s2 hrest hinv hd hfuel hloop

/-- A call of `dfs` keeps `Laminar`. -/
theorem dfs_laminar (g : Graph) (N : Nat) (hg : GraphWF g N) :
    ∀ (f : Nat) (s : DState) (v : Nat) (s3 : DState), Inv g N s → Laminar s.arr → v < N →
      pushOf s.arr v = 0 → N + 1 ≤ f + s.pushNo → dfs g f s (v : Int) = .ok s3 →
      Laminar s3.arr := by
  intro f
  induction f with
  | zero =>
    intro s v s3 _ _ _ _ _ hdfs
    simp [dfs] at hdfs
  | succ f ih =>
    intro s v s3 hinv hlam hv h0 hfuel hdfs
    have hvl : v < s.arr.length := by rw [hinv.len]; exact hv
    have hx : s.arr[v]? = some s.arr[v] := List.getElem?_eq_getElem hvl
    have hvh : v < g.listHead.length := by rw [hg.2.1]; exact hv
    have hh : g.listHead[v]? = some g.listHead[v] := List.getElem?_eq_getElem hvh
    have hadj := adj_eq_ptr g v _ hh
    have hpos := hinv.pop_pos
    have hle := hinv.pop_le_push
    have hpv : popOf s.arr v = 0 := by
      by_contra hc
      exact hinv.fin_disc v hc h0
    have hinv1 := inv_mark g N s v _ hinv hx h0
    have hpush1 := pushOf_mark s.arr v _ s.pushNo hx
    have hpop1 := popOf_mark s.arr v _ s.pushNo hx
    have hlam1 := laminar_mark s.arr v _ s.pushNo hx hpv hlam
    obtain ⟨s2, hloop, hinv2, hext, _⟩ := dfsLoop_spec g N f (dfs_spec g N hg f)
      (g.listHead[v]).ptr _
      (fun d hd => hg.2.2 v d (by rw [hadj]; exact hd)) hinv1
      (by show N + 1 ≤ f + (s.pushNo + 1); omega)
    have hlam2 := dfsLoop_laminar g N f hg ih (g.listHead[v]).ptr _ s2
      (fun d hd => hg.2.2 v d (by rw [hadj]; exact hd)) hinv1 hlam1
      (by show N + 1 ≤ f + (s.pushNo + 1); omega) hloop
    have hframe := hext.frame
    have hfresh := hext.fresh
    simp only [] at hframe hfresh
    have hv1 : pushOf (s.arr.set v { s.arr[v] with push := s.pushNo }) v ≠ 0 := by
      rw [hpush1]; simp; omega
    have hpv2 : pushOf s2.arr v = s.pushNo := by
      rw [(hframe v hv1).1, hpush1]; simp
    have hvl2 : v < s2.arr.length := by rw [hinv2.len]; exact hv
    have hy : s2.arr[v]? = some s2.arr[v] := List.getElem?_eq_getElem hvl2
    simp only [dfs, getAt_natCast, hh, hx, setAt_natCast _ _ _ hvl, hloop, hy,
      setAt_natCast _ _ _ hvl2] at hdfs
    cases hdfs
    show Laminar (s2.arr.set v _)
    refine laminar_finish s2.arr v _ s2.popNo s.popNo hy hinv2.pop_lt ?_ ?_ hlam2
    · -- finished and discovered before `v`: finished before the call
      intro u huv hufin hlt
      have hu2 : pushOf s2.arr u ≠ 0 := hinv2.fin_disc u hufin
      have hu1 : pushOf (s.arr.set v { s.arr[v] with push := s.pushNo }) u ≠ 0 := by
        intro hc
        have := (hfresh u hc hu2).2.1
        have e : s.pushNo + 1 ≤ pushOf s2.arr u := this
        omega
      rw [(hframe u hu1).2, hpop1]
      exact hinv.pop_lt u
    · -- discovered after `v`: discovered during the call
      intro w hwv hwfin hlt
      have hw2 : pushOf s2.arr w ≠ 0 := hinv2.fin_disc w hwfin
      have hw1 : pushOf (s.arr.set v { s.arr[v] with push := s.pushNo }) w = 0 := by
        by_contra hc
        have e := (hframe w hc).1
        rw [hpush1, if_neg (Ne.symm hwv)] at e
        have := hinv.push_lt w
        omega
      exact (hfresh w hw1 hw2).2.2

/-- The second loop of `dfsWrapper` keeps `Laminar`. -/
theorem outerLoop_laminar (g : Graph) (N : Nat) (hg : GraphWF g N) :
    ∀ (l : List Nat) (s s2 : DState), (∀ i ∈ l, i < N) → Inv g N s → Laminar s.arr →
      outerLoop g N l s = .ok s2 → Laminar s2.arr := by
  intro l
  induction l with
  | nil =>
    intro s s2 _ _ hd hloop
    simp only [outerLoop] at hloop
    cases hloop
    exact hd
  | cons i rest ihl =>
    intro s s2 hrange hinv hd hloop
    have hiN : i < N := hrange i (List.mem_cons_self _ _)
    have hrest : ∀ j ∈ rest, j < N := fun j hj => hrange j (List.mem_cons_of_mem _ hj)
    have hil : i < s.arr.length := by rw [hinv.len]; exact hiN
    have hget : s.arr[i]? = some s.arr[i] := List.getElem?_eq_getElem hil
    have hpi : pushOf s.arr i = (s.arr[i]).push := pushOf_eq_getElem s.arr i hil
    have hpos := hinv.pop_pos
    have hle := hinv.pop_le_push
    by_cases hz : (s.arr[i]).push = 0
    · obtain ⟨s1, h1, hinv1, _, _, _⟩ :=
        dfs_spec g N hg N s i hinv hiN (hpi.trans hz) (by omega)
      have hd1 := dfs_laminar g N hg N s i s1 hinv hd hiN (hpi.trans hz) (by omega) h1
      simp only [outerLoop, hget, hz, if_true, h1] at hloop
      exact ihl s1 s2 hrest hinv1 hd1 hloop
    · simp only [outerLoop, hget, hz, if_false] at hloop
      exact ihl s s2 hrest hinv hd hloop

/-- In the final state of a run on valid edges the visits are laminar, and what lies
inside a visit was reached from its vertex. -/
theorem final_laminar (N : Nat) (edges : List Edge) (hval : ValidEdges N edges) :
    ∃ g s, mkGraph N edges = .ok g ∧ (∀ v, g.adj v = adjSpec edges v) ∧
      Inv g N s ∧ Ext g (fun r => r < N) (initState N) s ∧
      (∀ v, v < N → pushOf s.arr v ≠ 0) ∧ run N edges = .ok s.arr ∧
      DescReach g s.arr ∧ Laminar s.arr := by
  obtain ⟨g, s, hmk, hg, hadj, hw, hinv, hext, hall, hrun, hdr⟩ := final_descReach N edges hval
  refine ⟨g, s, hmk, hadj, hinv, hext, hall, hrun, hdr, ?_⟩
  have hw2 : outerLoop g N (List.range N) (initState N) = .ok s := by
    have := hw
    unfold dfsWrapper dfsWrapperFuel at this
    rw [hg.1] at this
    exact this
  refine outerLoop_laminar g N hg (List.range N) (initState N) s
    (fun i hi => List.mem_range.mp hi) (inv_initState g N) ?_ hw2
  intro a b c ha
  exact absurd (popOf_replicate N a _ rfl) ha

/-- Two vertices of a final dfs array, the first discovered before the second: either
the second visit lies inside the first, or the first vertex is finished before the
second is discovered and the two visits have no vertex in common. -/
theorem visits_of_ordered_pair (g : Graph) (N : Nat) (s : DState) (hinv : Inv g N s)
    (hfin : ∀ v, v < N → popOf s.arr v ≠ 0) (hlam : Laminar s.arr)
    (u v : Nat) (hu : u < N) (hv : v < N) (hlt : pushOf s.arr u < pushOf s.arr v) :
    (Inside s.arr v u ∧ visitSet s.arr v ⊆ visitSet s.arr u) ∨
    (popOf s.arr u < popOf s.arr v ∧ popOf s.arr u < pushOf s.arr v ∧
      Disjoint (visitSet s.arr u) (visitSet s.arr v)) := by
  have huv : u ≠ v := by intro hc; rw [hc] at hlt; omega
  have hq : popOf s.arr u ≠ popOf s.arr v := fun hc => huv (hinv.pop_inj u v (hfin u hu) hc)
  rcases Nat.lt_or_gt_of_ne hq with hlo | hhi
  · right
    refine ⟨hlo, ?_, ?_⟩
    · have hn := hinv.nest u v huv (hfin u hu) (hfin v hv)
      unfold Nested at hn
      omega
    · rw [Finset.disjoint_left]
      intro w hwu hwv
      unfold visitSet at hwu hwv
      rw [Finset.mem_filter, Finset.mem_range] at hwu hwv
      have hwN : w < N := by rw [← hinv.len]; exact hwu.1
      have hwu2 : w ≠ u := by intro hc; rw [hc] at hwv; omega
      have hwv2 : w ≠ v := by intro hc; rw [hc] at hwu; omega
      have h1 : popOf s.arr w ≠ popOf s.arr u :=
        fun hc => hwu2 (hinv.pop_inj w u (hfin w hwN) hc)
      have h2 : pushOf s.arr w ≠ pushOf s.arr v :=
        fun hc => hwv2 (hinv.push_inj w v (hinv.fin_disc w (hfin w hwN)) hc)
      have h3 := hlam u v w (hfin u hu) (hfin v hv) (hfin w hwN)
        ⟨by omega, by omega⟩ ⟨by omega, by omega⟩ hlt
      omega
  · left
    refine ⟨⟨hlt, hhi⟩, ?_⟩
    intro w hw
    unfold visitSet at hw ⊢
    rw [Finset.mem_filter] at hw ⊢
    exact ⟨hw.1, by omega, by omega⟩

/-- C4, as stated, fails: in the sample of `main` vertex 1 has push number 4 and pop
number 2, so the interval from its push number to its pop number contains no integer
at all, not even its own end points; and the integers between the two numbers of
vertex 1, which are 2, 3, 4, and those of vertex 3, which are 3, 4, 5, 6, overlap
partially. -/
theorem interval_nesting_fails :
    ∃ arr, run 6 sampleEdges = .ok arr ∧ interval arr 1 = ∅ ∧
      ¬ Disjoint (span arr 1) (span arr 3) ∧ ¬ span arr 1 ⊆ span arr 3 ∧
      ¬ span arr 3 ⊆ span arr 1 :=
  ⟨[⟨6, 1⟩, ⟨2, 4⟩, ⟨5, 2⟩, ⟨3, 6⟩, ⟨1, 5⟩, ⟨4, 3⟩], rfl, by decide, by decide, by decide,
    by decide⟩

/-- C4, amended: for any two distinct vertices the visits are nested or apart. The
visit of `u` is the set of vertices with push number at least that of `u` and pop
number at most that of `u`; it contains `u`, and all its vertices can be reached from
`u`. Either one of the two vertices is discovered after and finished before the other,
and then its visit is contained in the visit of the other; or one of them has the
smaller push number and the smaller pop number, its pop number is below the push
number of the other, and the two visits have no vertex in common. Visits never overlap
partially. -/
theorem visits_nested_or_disjoint (N : Nat) (edges : List Edge) (hval : ValidEdges N edges) :
    ∃ arr, run N edges = .ok arr ∧ arr.length = N ∧
      (∀ u, u < N → u ∈ visitSet arr u ∧ ∀ w, w ∈ visitSet arr u → Reachable edges u w) ∧
      ∀ u, u < N → ∀ v, v < N → u ≠ v →
        (Inside arr v u ∧ visitSet arr v ⊆ visitSet arr u) ∨
        (Inside arr u v ∧ visitSet arr u ⊆ visitSet arr v) ∨
        (pushOf arr u < pushOf arr v ∧ popOf arr u < popOf arr v ∧
          popOf arr u < pushOf arr v ∧ Disjoint (visitSet arr u) (visitSet arr v)) ∨
        (pushOf arr v < pushOf arr u ∧ popOf arr v < popOf arr u ∧
          popOf arr v < pushOf arr u ∧ Disjoint (visitSet arr u) (visitSet arr v)) := by
  obtain ⟨g, s, _, hadj, hinv, hext, hall, hrun, hdr, hlam⟩ := final_laminar N edges hval
  obtain ⟨_, _, hfin⟩ := final_facts g N s hinv hext hall
  refine ⟨s.arr, hrun, hinv.len, ?_, ?_⟩
  · intro u hu
    constructor
    · unfold visitSet
      rw [Finset.mem_filter, Finset.mem_range, hinv.len]
      exact ⟨hu, le_refl _, le_refl _⟩
    · intro w hw
      unfold visitSet at hw
      rw [Finset.mem_filter, Finset.mem_range, hinv.len] at hw
      rw [← reach_iff_reachable g edges hadj]
      by_cases hwu : w = u
      · rw [hwu]
        exact Relation.ReflTransGen.refl
      · have h1 : pushOf s.arr w ≠ pushOf s.arr u :=
          fun hc => hwu (hinv.push_inj w u (hall w hw.1) hc)
        have h2 : popOf s.arr w ≠ popOf s.arr u :=
          fun hc => hwu (hinv.pop_inj w u (hfin w hw.1) hc)
        exact hdr u w (hfin u hu) (hfin w hw.1) (by omega) (by omega)
  · intro u hu v hv huv
    have hp : pushOf s.arr u ≠ pushOf s.arr v :=
      fun hc => huv (hinv.push_inj u v (hall u hu) hc)
    rcases Nat.lt_or_gt_of_ne hp with hlt | hgt
    · rcases visits_of_ordered_pair g N s hinv hfin hlam u v hu hv hlt with h | h
      · exact Or.inl h
      · exact Or.inr (Or.inr (Or.inl ⟨hlt, h.1, h.2.1, h.2.2⟩))
    · rcases visits_of_ordered_pair g N s hinv hfin hlam v u hv hu hgt with h | h
      · exact Or.inr (Or.inl h)
      · exact Or.inr (Or.inr (Or.inr ⟨hgt, h.1, h.2.1, h.2.2.symm⟩))

/-- Witness for the amended C4 on the sample of `main`. -/
theorem visits_nested_or_disjoint_witness :
    ValidEdges 6 sampleEdges ∧
    ∃ arr, run 6 sampleEdges = .ok arr ∧ arr.length = 6 ∧
      (∀ u, u < 6 → u ∈ visitSet arr u ∧
        ∀ w, w ∈ visitSet arr u → Reachable sampleEdges u w) ∧
      ∀ u, u < 6 → ∀ v, v < 6 → u ≠ v →
        (Inside arr v u ∧ visitSet arr v ⊆ visitSet arr u) ∨
        (Inside arr u v ∧ visitSet arr u ⊆ visitSet arr v) ∨
        (pushOf arr u < pushOf arr v ∧ popOf arr u < popOf arr v ∧
          popOf arr u < pushOf arr v ∧ Disjoint (visitSet arr u) (visitSet arr v)) ∨
        (pushOf arr v < pushOf arr u ∧ popOf arr v < popOf arr u ∧
          popOf arr v < pushOf arr u ∧ Disjoint (visitSet arr u) (visitSet arr v)) :=
  ⟨by decide, visits_nested_or_disjoint 6 sampleEdges (by decide)⟩

end GraphDFS
